import Mathlib

/-!
Shallow embedding of the audit / permission core of the OTM2 repository
(`src/opentreemap/treemap/audit.py`): the change tracker and authorization
mixins (`UserTrackable`, `Authorizable`, `Auditable`), the audit ledger
(`Audit`, `FieldPermission`), the single-audit resolution functions
(`approve_or_reject_audit_and_apply`, `approve_or_reject_existing_edit`,
`_process_approved_pending_insert`, `_verify_user_can_apply_audit`) and the
batch review orchestrator (`approve_or_reject_audits_and_apply`).

Modelling conventions:
* Field values are kept in their serialized text form throughout
  (spec section 6 treats serialization as an opaque external-store concern),
  so `Value := Option String`; `none` models Python `None`, which is also
  the value of an absent dictionary key (`dict.get(k, None)`).
* Database state (`DB`) holds the audit table, the persisted record store
  and the shared autonumber sequence.  Stateful functions take and return a
  `DB`, pairing it with `Except Err _` so that a raise that happens after a
  partial mutation keeps the mutated state, exactly as unwrapped Python
  code would.
* `user.get_instance_permissions` and `user.get_role` live outside the
  given sources (on the `User` model); per spec section 4.1 they return the
  field permissions / role of the user for a tenant, so they are modelled
  as abstract functions carried by the `User` value.
-/

set_option autoImplicit false

namespace OTM2

/-- Serialized field values as stored in audit rows and record snapshots.
`none` models Python `None` and absent keys. -/
abbrev Value := Option String

/-- Audit action kinds (class `Audit.Type` in `audit.py`). -/
inductive AuditAction where
  | insert
  | delete
  | update
  | pendingApprove
  | pendingReject
  | reviewApprove
  | reviewReject
deriving DecidableEq, Repr

/-- Exceptions raised by the audit core.  `authorize` is `AuthorizeException`
(also used for the masked-object and missing-instance raises, which the
source raises as `AuthorizeException` too); `alreadyResolved` is the generic
`Exception('This audit has already been approved or rejected')`;
`pendingCannotBeReviewed` is the generic exception raised by
`approve_or_reject_existing_edit` on a `requires_auth` audit; `alreadySaved`
is `Exception('You have already saved this object.')`; `integrity` is
`IntegrityError`; `keyError` / `typeError` / `doesNotExist` model the
corresponding Python exceptions; `fuel` models non-termination of the
recursive rejection cascade (unreachable on well-formed ledgers). -/
inductive Err where
  | authorize
  | userTracking
  | alreadyResolved
  | pendingCannotBeReviewed
  | alreadySaved
  | keyError
  | typeError
  | integrity
  | doesNotExist
  | fuel
deriving DecidableEq, Repr

/-- One row of the audit ledger (class `Audit`).  `pk` doubles as the
creation timestamp (`created`): audit primary keys are assigned from a
monotone counter, so `created` ordering coincides with `pk` ordering. -/
structure Audit where
  pk : Nat
  model : String
  model_id : Value
  inst : Option Nat
  field : Option String
  previous_value : Value
  current_value : Value
  user : Nat
  action : AuditAction
  requires_auth : Bool
  ref : Option Nat
  created : Nat
deriving DecidableEq, Repr

/-- One field-permission row (class `FieldPermission`). -/
structure FieldPermission where
  model_name : String
  field_name : String
  role : Nat
  inst : Nat
  permission_level : Nat
deriving DecidableEq, Repr

namespace FieldPermission

def NONE : Nat := 0
def READ_ONLY : Nat := 1
def WRITE_WITH_AUDIT : Nat := 2
def WRITE_DIRECTLY : Nat := 3

def allows_reads (p : FieldPermission) : Bool :=
  READ_ONLY ≤ p.permission_level

def allows_writes (p : FieldPermission) : Bool :=
  WRITE_WITH_AUDIT ≤ p.permission_level

end FieldPermission

/-- Modelled from the spec: the acting user.  `get_instance_permissions`
and `get_role` are defined on the `User` model outside the given sources;
per spec section 4.1 (`permissions_for(tenant, role, model_type)`) they
return the field-permission rows of the user's role for a tenant and model
type, and the role itself (here: its name), so they are carried as abstract
functions of the tenant id. -/
structure User where
  id : Nat
  get_instance_permissions : Nat → String → List FieldPermission
  role_name : Nat → String

/-- Django field metadata used by the core (`_meta.fields` entries). -/
structure FieldMeta where
  name : String
  null : Bool
  blank : Bool
  primary_key : Bool
  is_fk : Bool
  fk_target : Option String
deriving DecidableEq, Repr

/-- An entry of the auditable/authorizable class registry
(`_get_auditable_class` / `_get_authorizable_class`): the tracked model
type's name, its field metadata, and whether instances expose an
`instance` attribute (`model_hasattr(obj, 'instance')`). -/
structure ModelClass where
  name : String
  meta_fields : List FieldMeta
  has_instance_attr : Bool
deriving DecidableEq, Repr

/-- Static environment: the class registry and the user-defined-field
definitions table.  Modelled from the spec: `UserDefinedFieldDefinition`
(module `udf`) is repository code outside the given sources; per spec
section 4.6 a UDF collection audit is authorized against the owning
collection's `udf:`-prefixed virtual field name on its model type, so a
UDF definition is modelled as (primary key, name, model type). -/
structure Env where
  models : List ModelClass
  udfs : List (String × String × String)

/-- Kernel-computable model of Python's `str.startswith` (equivalently
`String.startsWith`, which does not reduce in the kernel): character-list
comparison. -/
def strStartsWith (s p : String) : Bool := p.data.isPrefixOf s.data

/-- Kernel-computable model of the Python slice `s[n:]`. -/
def strDrop (s : String) (n : Nat) : String := String.mk (s.data.drop n)

/-- Decidable equality of `Except` results, used to evaluate theorems on
concrete inputs. -/
instance instDecEqExcept {e a : Type} [DecidableEq e] [DecidableEq a] :
    DecidableEq (Except e a) := fun x y =>
  match x, y with
  | .error p, .error q =>
    if h : p = q then isTrue (by rw [h]) else isFalse (fun he => by cases he; exact h rfl)
  | .ok p, .ok q =>
    if h : p = q then isTrue (by rw [h]) else isFalse (fun he => by cases he; exact h rfl)
  | .error _, .ok _ => isFalse (fun he => by cases he)
  | .ok _, .error _ => isFalse (fun he => by cases he)

/-- Registry lookup (`_get_model_class` without the `udf:` special case;
a missing name raises `KeyError`, here surfaced by returning `none`). -/
def Env.get_model_class (env : Env) (model_name : String) : Option ModelClass :=
  env.models.find? (fun c => decide (c.name = model_name))

/-- A persisted record in the backing store. -/
structure StoredObj where
  model : String
  pk : Value
  inst : Option Nat
  fields : List (String × Value)
deriving DecidableEq, Repr

/-- Attribute read on a stored record; the primary key is the `id`
attribute, other fields default to `None` when never set. -/
def StoredObj.getattr (o : StoredObj) (key : String) : Value :=
  if key = "id" then o.pk else (o.fields.lookup key).getD none

/-- Replace the binding of `k` (or append it), preserving list order:
the model of `setattr` on an association list. -/
def setVal (k : String) (v : Value) : List (String × Value) → List (String × Value)
  | [] => [(k, v)]
  | (k', v') :: rest => if k' = k then (k, v) :: rest else (k', v') :: setVal k v rest

/-- `UserTrackable.apply_change` (a `setattr`) on a stored record. -/
def StoredObj.apply_change (o : StoredObj) (key : String) (v : Value) : StoredObj :=
  if key = "id" then { o with pk := v } else { o with fields := setVal key v o.fields }

/-- The backing store: the audit table, the persisted records, and the
shared autonumber sequence (spec section 5: one atomically-incrementing
sequence serves both normal primary-key generation and reservation). -/
structure DB where
  audits : List Audit
  next_audit_pk : Nat
  seq : Nat
  objects : List StoredObj
deriving DecidableEq, Repr

/-- Persist a fresh `Audit` row: assign its primary key (and creation
stamp) from the audit counter and append it to the ledger. -/
def DB.saveNewAudit (db : DB) (a : Audit) : Nat × DB :=
  let pk := db.next_audit_pk
  (pk, { db with audits := db.audits ++ [{ a with pk := pk, created := pk }],
                 next_audit_pk := pk + 1 })

/-- Re-save an existing `Audit` row (`audit.save()` on a row that already
has a primary key): replace the row with the same `pk`. -/
def DB.updateAudit (db : DB) (a : Audit) : DB :=
  { db with audits := db.audits.map (fun x => if x.pk = a.pk then a else x) }

/-- `TheModel.objects.get(pk=...)`: fetch a persisted record by model type
and primary key, `none` for `ObjectDoesNotExist`. -/
def DB.getObject (db : DB) (model : String) (pk : Value) : Option StoredObj :=
  db.objects.find? (fun o => decide (o.model = model ∧ o.pk = pk))

/-- `obj.save_base()` / `models.Model.save(obj)` with a primary key already
assigned: update the stored row in place, or insert it. -/
def DB.save_base (db : DB) (obj : StoredObj) : DB :=
  if (db.objects.find? (fun o => decide (o.model = obj.model ∧ o.pk = obj.pk))).isSome then
    let upd := fun (o : StoredObj) => if o.model = obj.model ∧ o.pk = obj.pk then obj else o
    { db with objects := db.objects.map upd }
  else
    { db with objects := db.objects ++ [obj] }

/-- `models.Model.delete(obj)`: remove the stored row. -/
def DB.deleteObject (db : DB) (model : String) (pk : Value) : DB :=
  { db with objects := db.objects.filter (fun o => !decide (o.model = model ∧ o.pk = pk)) }

/-- `select nextval(seq)`: draw the next identifier from the shared
sequence (used both by normal saves and by `_reserve_model_id`). -/
def DB.nextval (db : DB) : Nat × DB :=
  (db.seq + 1, { db with seq := db.seq + 1 })

/-- An in-memory tracked record (a model instance carrying the
`UserTrackable` / `Authorizable` / `Auditable` mixin state).  `pk` is the
`id` attribute in serialized form; `fields` holds the other tracked
attribute values (the untracked `instance` reference is kept separately in
`inst`); `previous_state` is the load-time snapshot. -/
structure TrackedRecord where
  model_name : String
  meta_fields : List FieldMeta
  inst : Option Nat
  pk : Value
  fields : List (String × Value)
  previous_state : List (String × Value)
  has_been_masked : Bool
  is_pending_insert : Bool
deriving DecidableEq, Repr

namespace TrackedRecord

/-- `self._do_not_track` as set in `UserTrackable.__init__`. -/
def do_not_track : List String := ["instance"]

/-- `Dictable.as_dict`: the record's tracked attribute values keyed by
field name (the `instance` reference is modelled outside `fields`, so it
never appears here; every consumer of `as_dict` filters it out anyway). -/
def as_dict (r : TrackedRecord) : List (String × Value) :=
  ("id", r.pk) :: r.fields

/-- Attribute read (`getattr`); the `id` attribute is the primary key. -/
def getattr (r : TrackedRecord) (key : String) : Value :=
  if key = "id" then r.pk else (r.fields.lookup key).getD none

/-- `UserTrackable.apply_change` (a `setattr`). -/
def apply_change (r : TrackedRecord) (key : String) (v : Value) : TrackedRecord :=
  if key = "id" then { r with pk := v } else { r with fields := setVal key v r.fields }

/-- `UserTrackable._updated_fields`: field-by-field diff of the live
values against the previous-state snapshot, as `(field, (old, new))`. -/
def _updated_fields (r : TrackedRecord) : List (String × Value × Value) :=
  r.as_dict.foldl
    (fun acc kv =>
      if kv.1 ∈ do_not_track then acc
      else
        let old := (r.previous_state.lookup kv.1).getD none
        if kv.2 ≠ old then acc ++ [(kv.1, old, kv.2)] else acc)
    []

/-- `UserTrackable.populate_previous_state`. -/
def populate_previous_state (r : TrackedRecord) : TrackedRecord :=
  if r.pk = none then { r with previous_state := [] }
  else { r with previous_state := r.as_dict.filter (fun kv => kv.1 ∉ do_not_track) }

/-- `UserTrackable.tracked_fields`. -/
def tracked_fields (r : TrackedRecord) : List String :=
  (r.meta_fields.map (fun f => f.name)).filter (fun n => n ∉ do_not_track)

/-- `UserTrackable._fields_required_for_create`. -/
def _fields_required_for_create (r : TrackedRecord) : List FieldMeta :=
  r.meta_fields.filter
    (fun f => !f.null && !f.blank && !f.primary_key && !(decide (f.name ∈ do_not_track)))

end TrackedRecord

/-- `Authorizable._get_perms_set`: the names of the fields the user may
write (all writes, or only direct writes when `direct_only`); raises
`AuthorizeException` when the record has no tenant. -/
def Authorizable._get_perms_set (u : User) (r : TrackedRecord) (direct_only : Bool) :
    Except Err (List String) :=
  match r.inst with
  | none => .error .authorize
  | some i =>
    let perms := u.get_instance_permissions i r.model_name
    if direct_only then
      .ok ((perms.filter
        (fun p => decide (p.permission_level = FieldPermission.WRITE_DIRECTLY))).map
          (fun p => p.field_name))
    else
      .ok ((perms.filter (fun p => p.allows_writes)).map (fun p => p.field_name))

/-- `Authorizable.user_can_delete`: administrators may always delete;
otherwise the user's writable-field set must cover every tracked field. -/
def Authorizable.user_can_delete (u : User) (r : TrackedRecord) : Except Err Bool :=
  match r.inst with
  | none => .error .doesNotExist
  | some i =>
    if u.role_name i = "administrator" then .ok true
    else
      match Authorizable._get_perms_set u r false with
      | .error e => .error e
      | .ok ps => .ok (r.tracked_fields.all (fun f => ps.contains f))

/-- `Authorizable.user_can_create`. -/
def Authorizable.user_can_create (u : User) (r : TrackedRecord) (direct_only : Bool) :
    Except Err Bool :=
  match Authorizable._get_perms_set u r direct_only with
  | .error e => .error e
  | .ok ps => .ok (r._fields_required_for_create.all (fun f => ps.contains f.name))

/-- `Authorizable.get_pending_fields`: the changed fields whose permission
level is exactly `WRITE_WITH_AUDIT` (a record without a tenant has no
permission rows, hence no pending fields). -/
def Authorizable.get_pending_fields (u : User) (r : TrackedRecord) : List String :=
  match r.inst with
  | none => []
  | some i =>
    let updated_keys := r._updated_fields.map (fun x => x.1)
    ((u.get_instance_permissions i r.model_name).filter
      (fun p => decide (p.permission_level = FieldPermission.WRITE_WITH_AUDIT) &&
                updated_keys.contains p.field_name)).map (fun p => p.field_name)

/-- `Authorizable.mask_unauthorized_fields`: overwrite every tracked field
the user may not read with `None` and mark the record masked. -/
def Authorizable.mask_unauthorized_fields (u : User) (r : TrackedRecord) :
    Except Err TrackedRecord :=
  match r.inst with
  | none => .error .doesNotExist
  | some i =>
    let readable := ((u.get_instance_permissions i r.model_name).filter
        (fun p => p.allows_reads)).map (fun p => p.field_name)
    let unreadable := (r.previous_state.map (fun kv => kv.1)).filter
        (fun f => !readable.contains f)
    let r' := unreadable.foldl (fun acc f => acc.apply_change f none) r
    .ok { r' with has_been_masked := true }

/-- `UserTrackable.save_with_user`: the low-level persistence step —
`models.Model.save` (assigning a fresh identifier from the shared sequence
when the record has none) followed by `populate_previous_state`. -/
def UserTrackable.save_with_user (r : TrackedRecord) (db : DB) : TrackedRecord × DB :=
  match r.pk with
  | some _ =>
    let db := db.save_base { model := r.model_name, pk := r.pk, inst := r.inst,
                             fields := r.fields }
    (r.populate_previous_state, db)
  | none =>
    let (n, db) := db.nextval
    let r := { r with pk := some (toString n) }
    let db := db.save_base { model := r.model_name, pk := r.pk, inst := r.inst,
                             fields := r.fields }
    (r.populate_previous_state, db)

/-- The `for pending_field in pending_fields:` loop of
`Auditable.save_with_user`: collect `(field, diff-entry)` pairs, revert the
live value to the diff's old value and delete the field from the updates
dictionary.  A pending field missing from the updates dictionary is a
`KeyError` (impossible while permission rows are unique per field). -/
def processPendingFields :
    List String → List (String × Value × Value) → TrackedRecord →
    Except Err (List (String × Value × Value) × List (String × Value × Value) × TrackedRecord)
  | [], updates, r => .ok ([], updates, r)
  | f :: rest, updates, r =>
    match updates.lookup f with
    | none => .error .keyError
    | some ov =>
      let r' := r.apply_change f ov.1
      let updates' := updates.eraseP (fun p => decide (p.1 = f))
      match processPendingFields rest updates' r' with
      | .error e => .error e
      | .ok (pas, u2, r2) => .ok ((f, ov) :: pas, u2, r2)

/-- The local `make_audit_and_save` of `Auditable.save_with_user`. -/
def make_audit_and_save (model_name : String) (model_id : Value) (inst : Option Nat)
    (uid : Nat) (action : AuditAction) (db : DB) (field : String)
    (prev_val cur_val : Value) (pending : Bool) : DB :=
  let a : Audit :=
    { pk := 0, model := model_name, model_id := model_id, inst := inst,
      field := some field, previous_value := prev_val, current_value := cur_val,
      user := uid, action := action, requires_auth := pending, ref := none,
      created := 0 }
  (db.saveNewAudit a).2

/-- One audit row per diff entry (the two audit-writing loops at the end of
`Auditable.save_with_user`). -/
def writeAuditList (model_name : String) (model_id : Value) (inst : Option Nat)
    (uid : Nat) (action : AuditAction) (pending : Bool) (db : DB)
    (items : List (String × Value × Value)) : DB :=
  items.foldl
    (fun acc it =>
      make_audit_and_save model_name model_id inst uid action acc it.1 it.2.1 it.2.2 pending)
    db

/-- The tail of `Auditable.save_with_user`: add the identity entry on an
insert (to the pending set for a pending insert, else to the direct
updates) and write one audit row per remaining update and per pending
field. -/
def finishSaveAudits (u : User) (r : TrackedRecord) (inst : Option Nat)
    (action : AuditAction) (is_insert : Bool) (model_id : Value)
    (updates pending_audits : List (String × Value × Value)) (db : DB) :
    (Except Err TrackedRecord) × DB :=
  let pair :=
    if is_insert then
      if r.is_pending_insert then (updates, pending_audits ++ [("id", (none, model_id))])
      else (updates ++ [("id", (none, model_id))], pending_audits)
    else (updates, pending_audits)
  let db := writeAuditList r.model_name model_id inst u.id action false db pair.1
  let db := writeAuditList r.model_name model_id inst u.id action true db pair.2
  (.ok r, db)

/-- `Auditable.save_with_user` (the domain classes mix `Authorizable` in,
so the `isinstance(self, Authorizable)` tests are true): refuse a second
save of a pending insert; compute the diff; divert exactly-audit fields to
the pending set, reverting their live values; then either persist through
the store (update, direct create, or authorization bypass) or reserve an
identifier and mark the record a pending insert; finally write the audit
rows.  `_reserve_model_id` wraps its work in a blanket `except:` raising
`IntegrityError`, modelled by the registry-lookup failure case (the
sequence itself is shared store state and cannot fail in the model, spec
section 7 treats its failure as a store-consistency error). -/
def Auditable.save_with_user (env : Env) (u : User) (r : TrackedRecord)
    (auth_bypass : Bool) (db : DB) : (Except Err TrackedRecord) × DB :=
  if r.is_pending_insert then (.error .alreadySaved, db)
  else
    let updates := r._updated_fields
    let is_insert := decide (r.pk = none)
    let action := if is_insert then AuditAction.insert else AuditAction.update
    let pending_fields := Authorizable.get_pending_fields u r
    match processPendingFields pending_fields updates r with
    | .error e => (.error e, db)
    | .ok (pending_audits, updates, r) =>
      let inst := r.inst
      match Authorizable.user_can_create u r true with
      | .error e => (.error e, db)
      | .ok canDirect =>
        if canDirect || !(decide (r.pk = none)) || auth_bypass then
          let (r, db) := UserTrackable.save_with_user r db
          finishSaveAudits u r inst action is_insert r.pk updates pending_audits db
        else
          match env.get_model_class r.model_name with
          | none => (.error .integrity, db)
          | some _ =>
            let (n, db) := db.nextval
            let r := { r with pk := some (toString n), is_pending_insert := true }
            finishSaveAudits u r inst action is_insert r.pk updates pending_audits db

/-- `Authorizable.save_with_user`, the public save entry point (the first
mixin in the method resolution order): refuse masked records; for an
existing record require a write permission on every diff field; for a new
record require create permission (with audits allowed); then run the
`Auditable` layer. -/
def Authorizable.save_with_user (env : Env) (u : User) (r : TrackedRecord) (db : DB) :
    (Except Err TrackedRecord) × DB :=
  if r.has_been_masked then (.error .authorize, db)
  else if !(decide (r.pk = none)) then
    match Authorizable._get_perms_set u r false with
    | .error e => (.error e, db)
    | .ok writable =>
      if (r._updated_fields.map (fun x => x.1)).all (fun f => writable.contains f) then
        Auditable.save_with_user env u r false db
      else (.error .authorize, db)
  else
    match Authorizable.user_can_create u r false with
    | .error e => (.error e, db)
    | .ok can =>
      if can then Auditable.save_with_user env u r false db
      else (.error .authorize, db)

/-- `Authorizable.save_with_user_without_verifying_authorization`: the
privileged internal path — no mask check, no permission checks, and the
`unsafe` directive handed to the `Auditable` layer. -/
def Authorizable.save_with_user_without_verifying_authorization (env : Env) (u : User)
    (r : TrackedRecord) (db : DB) : (Except Err TrackedRecord) × DB :=
  Auditable.save_with_user env u r true db

/-- `Auditable.delete_with_user`: delete through the store (clearing the
snapshot) and append one Delete audit row (field null). -/
def Auditable.delete_with_user (u : User) (r : TrackedRecord) (db : DB) :
    (Except Err TrackedRecord) × DB :=
  let a : Audit :=
    { pk := 0, model := r.model_name, model_id := r.pk, inst := r.inst,
      field := none, previous_value := none, current_value := none, user := u.id,
      action := .delete, requires_auth := false, ref := none, created := 0 }
  let db := db.deleteObject r.model_name r.pk
  let r := { r with previous_state := [] }
  let db := (db.saveNewAudit a).2
  (.ok r, db)

/-- `Authorizable.delete_with_user`, the public delete entry point:
refuse masked records, check `user_can_delete`, then run the `Auditable`
layer. -/
def Authorizable.delete_with_user (u : User) (r : TrackedRecord) (db : DB) :
    (Except Err TrackedRecord) × DB :=
  if r.has_been_masked then (.error .authorize, db)
  else
    match Authorizable.user_can_delete u r with
    | .error e => (.error e, db)
    | .ok true => Auditable.delete_with_user u r db
    | .ok false => (.error .authorize, db)

/-- Deserialized audit values (`Audit.clean_current_value`): deserialization
converts the stored text back through the external store's field classes
(spec section 6 treats serialization of field values as opaque), so on the
opaque serialized representation it is the identity; the `udf:` branch of
the source returns the stored value unchanged as well. -/
def Audit.clean_current_value (a : Audit) : Value := a.current_value

/-- Deserialized previous value (`Audit.clean_previous_value`); identity on
the opaque serialized representation, as for `clean_current_value`. -/
def Audit.clean_previous_value (a : Audit) : Value := a.previous_value

/-- The permission target of `_verify_user_can_apply_audit`: for a
`udf:`-prefixed model the owning collection's `udf:`-prefixed virtual field
name on the collection's model type, otherwise the audit's own field and
model. -/
def verifyPermTarget (env : Env) (audit : Audit) : Except Err (Option String × String) :=
  if strStartsWith audit.model "udf:" then
    match env.udfs.find? (fun x => decide (x.1 = strDrop audit.model 4)) with
    | none => .error .doesNotExist
    | some x => .ok (some ("udf:" ++ x.2.1), x.2.2)
  else .ok (audit.field, audit.model)

/-- The permission scan of `_verify_user_can_apply_audit`: the first
permission row naming the field decides — only `WRITE_DIRECTLY` passes; no
matching row raises `AuthorizeException` as well. -/
def verifyPermLoop (field : Option String) : List FieldPermission → Except Err Unit
  | [] => .error .authorize
  | p :: rest =>
    if some p.field_name = field then
      if p.permission_level = FieldPermission.WRITE_DIRECTLY then .ok ()
      else .error .authorize
    else verifyPermLoop field rest

/-- `_verify_user_can_apply_audit`: the reviewer must hold `WRITE_DIRECTLY`
on the audited field (or the owning UDF collection's virtual field) for the
audit's tenant and model type. -/
def _verify_user_can_apply_audit (env : Env) (audit : Audit) (user : User) :
    Except Err Unit :=
  match verifyPermTarget env audit with
  | .error e => .error e
  | .ok fm =>
    match audit.inst with
    | none => .error .authorize
    | some i => verifyPermLoop fm.1 (user.get_instance_permissions i fm.2)

/-- The action of the review audit a given audit's `ref` points to, if any
(the `ref__action` join used by `get_related_audits`). -/
def refAction (db : DB) (a : Audit) : Option AuditAction :=
  match a.ref with
  | none => none
  | some rpk => (db.audits.find? (fun x => decide (x.pk = rpk))).map (fun x => x.action)

/-- `get_related_audits`: all *other* audit rows of the same pending
insert — same tenant, record identifier, model type and Insert action;
with `approved_only`, only those already resolved by a PendingApprove
review audit. -/
def get_related_audits (db : DB) (insert_audit : Audit) (approved_only : Bool) :
    List Audit :=
  let related := db.audits.filter (fun a => decide (a.inst = insert_audit.inst ∧
    a.model_id = insert_audit.model_id ∧ a.model = insert_audit.model ∧
    a.action = AuditAction.insert ∧ a.pk ≠ insert_audit.pk))
  if approved_only then
    related.filter (fun a => decide (refAction db a = some AuditAction.pendingApprove))
  else related

/-- The application loop of `_process_approved_pending_insert`: write each
collected audit's (deserialized) current value onto the record under
construction; an audit with a null field name would crash `setattr`. -/
def applyAuditsToObj : List Audit → StoredObj → Except Err StoredObj
  | [], obj => .ok obj
  | a :: rest, obj =>
    match a.field with
    | none => .error .typeError
    | some f => applyAuditsToObj rest (obj.apply_change f a.clean_current_value)

/-- `Auditable.validate_foreign_keys_exist`: every non-primary-key
foreign-key field must either reference an existing row of its target
model, or be null and not required (`is_required` is `null is False or
blank is False` in the source). -/
def validate_foreign_keys_exist (db : DB) (obj : StoredObj) :
    List FieldMeta → Except Err Unit
  | [] => .ok ()
  | f :: rest =>
    if f.is_fk ∧ ¬f.primary_key then
      match obj.getattr f.name with
      | some v =>
        match f.fk_target with
        | none => .error .integrity
        | some tgt =>
          if (db.getObject tgt (some v)).isSome then validate_foreign_keys_exist db obj rest
          else .error .integrity
      | none =>
        if !f.null || !f.blank then .error .integrity
        else validate_foreign_keys_exist db obj rest
    else validate_foreign_keys_exist db obj rest

/-- `_process_approved_pending_insert`: construct the record under its
reserved identifier, apply every related audit already resolved with a
PendingApprove review, validate foreign keys, and persist. -/
def _process_approved_pending_insert (cls : ModelClass) (audit : Audit) (db : DB) :
    (Except Err Unit) × DB :=
  let obj : StoredObj :=
    { model := audit.model, pk := audit.model_id,
      inst := if cls.has_instance_attr then audit.inst else none, fields := [] }
  let approved_audits := get_related_audits db audit true
  match applyAuditsToObj approved_audits obj with
  | .error e => (.error e, db)
  | .ok obj =>
    match validate_foreign_keys_exist db obj cls.meta_fields with
    | .error e => (.error e, db)
    | .ok _ => (.ok (), db.save_base obj)

/-- The common tail of both resolution functions: save the review audit,
set the resolved audit's `ref` to it and re-save the resolved audit. -/
def finishResolution (audit review : Audit) (db : DB) : (Except Err Audit) × DB :=
  let p := db.saveNewAudit review
  let audit := { audit with ref := some p.1 }
  let db := p.2.updateAudit audit
  (.ok { review with pk := p.1, created := p.1 }, db)

mutual

/-- `approve_or_reject_audit_and_apply`, with explicit fuel bounding the
recursion of the rejection cascade (the source recurses unboundedly; on a
well-formed ledger the cascade depth is finite).  Refuse an audit whose
`ref` is already set; verify the reviewer's permission; on approval apply
the change to the existing record, or materialize the pending insert when
the identity audit's record does not exist yet; on rejection of an
identity audit clear and recursively reject every related audit; finally
write the PendingApprove/PendingReject review audit and link it. -/
def approve_or_reject_audit_and_apply (fuel : Nat) (env : Env) (audit : Audit)
    (user : User) (approved : Bool) (db : DB) : (Except Err Audit) × DB :=
  match fuel with
  | 0 => (.error .fuel, db)
  | fuel + 1 =>
    if audit.ref ≠ none then (.error .alreadyResolved, db)
    else
      match _verify_user_can_apply_audit env audit user with
      | .error e => (.error e, db)
      | .ok _ =>
        let review : Audit :=
          { pk := 0, model := audit.model, model_id := audit.model_id, inst := audit.inst,
            field := audit.field, previous_value := audit.previous_value,
            current_value := audit.current_value, user := user.id,
            action := AuditAction.pendingApprove, requires_auth := false, ref := none,
            created := 0 }
        match env.get_model_class audit.model with
        | none => (.error .keyError, db)
        | some cls =>
          if approved then
            match db.getObject audit.model audit.model_id with
            | some obj =>
              match audit.field with
              | none => (.error .typeError, db)
              | some f =>
                let obj := obj.apply_change f audit.clean_current_value
                let db := db.save_base obj
                finishResolution audit review db
            | none =>
              if audit.field = some "id" then
                match _process_approved_pending_insert cls audit db with
                | (.error e, db) => (.error e, db)
                | (.ok _, db) => finishResolution audit review db
              else finishResolution audit review db
          else
            let review := { review with action := AuditAction.pendingReject }
            if audit.field = some "id" then
              match rejectRelated fuel env user (get_related_audits db audit false) db with
              | (.error e, db) => (.error e, db)
              | (.ok _, db) => finishResolution audit review db
            else finishResolution audit review db
termination_by (fuel, 0)

/-- The rejection cascade of `approve_or_reject_audit_and_apply`: for each
related audit, clear any existing `ref`, re-save it, and recursively
reject it. -/
def rejectRelated (fuel : Nat) (env : Env) (user : User) (l : List Audit) (db : DB) :
    (Except Err Unit) × DB :=
  match l with
  | [] => (.ok (), db)
  | ra :: rest =>
    let ra := { ra with ref := none }
    let db := db.updateAudit ra
    match approve_or_reject_audit_and_apply fuel env ra user false db with
    | (.error e, db) => (.error e, db)
    | (.ok _, db) => rejectRelated fuel env user rest db
termination_by (fuel, l.length + 1)

end

/-- The `order_by('-created')[0].pk` lookup of
`approve_or_reject_existing_edit`: the primary key of the most recent
audit for the audited record field, `none` when no such audit exists
(`IndexError` branch). -/
def mostRecentAuditPk (db : DB) (audit : Audit) : Option Nat :=
  let filtered := db.audits.filter (fun a => decide (a.model = audit.model ∧
    a.model_id = audit.model_id ∧ a.inst = audit.inst ∧ a.field = audit.field))
  (filtered.foldl
    (fun acc a =>
      match acc with
      | none => some a
      | some b => if b.created < a.created then some a else some b)
    none).map (fun a => a.pk)

/-- `approve_or_reject_existing_edit`: after-the-fact review of an already
applied audit.  Refuse an audit whose `ref` is set or that is pending;
verify the reviewer's permission; on approval nothing happens to the
record; on rejection delete the record for an identity audit, or revert
the field when this audit is the most recent one for it; then write the
ReviewApprove/ReviewReject review audit and link it. -/
def approve_or_reject_existing_edit (env : Env) (audit : Audit) (user : User)
    (approved : Bool) (db : DB) : (Except Err Audit) × DB :=
  if audit.ref ≠ none then (.error .alreadyResolved, db)
  else if audit.requires_auth then (.error .pendingCannotBeReviewed, db)
  else
    let review : Audit :=
      { pk := 0, model := audit.model, model_id := audit.model_id, inst := audit.inst,
        field := audit.field, previous_value := audit.previous_value,
        current_value := audit.current_value, user := user.id,
        action := AuditAction.reviewApprove, requires_auth := false, ref := none,
        created := 0 }
    match _verify_user_can_apply_audit env audit user with
    | .error e => (.error e, db)
    | .ok _ =>
      match env.get_model_class audit.model with
      | none => (.error .keyError, db)
      | some _ =>
        if approved then finishResolution audit review db
        else
          let review := { review with action := AuditAction.reviewReject }
          match db.getObject audit.model audit.model_id with
          | none => finishResolution audit review db
          | some obj =>
            if audit.field = some "id" then
              let db := db.deleteObject audit.model audit.model_id
              finishResolution audit review db
            else
              match mostRecentAuditPk db audit with
              | none => finishResolution audit review db
              | some mrpk =>
                if mrpk = audit.pk then
                  match audit.field with
                  | none => (.error .typeError, db)
                  | some f =>
                    let obj := obj.apply_change f audit.clean_previous_value
                    let db := db.save_base obj
                    finishResolution audit review db
                else finishResolution audit review db

/-- The resolution order chosen by `approve_or_reject_audits_and_apply`,
translated loop by loop: the first pass resolves non-identity audits in
input order while collecting identity audits; one pass per entry of
`model_order = ['Plot', 'Tree']` resolves the matching identity audits
while collecting the rest; the final pass resolves whatever remains. -/
def batch_resolution_order (audits : List Audit) : List Audit :=
  let first := audits.foldl
    (fun acc a =>
      if a.field = some "id" then (acc.1, acc.2 ++ [a]) else (acc.1 ++ [a], acc.2))
    (([] : List Audit), ([] : List Audit))
  let second := (["Plot", "Tree"]).foldl
    (fun acc m => acc.2.foldl
      (fun acc2 a =>
        if a.model = m then (acc2.1 ++ [a], acc2.2) else (acc2.1, acc2.2 ++ [a]))
      (acc.1, ([] : List Audit)))
    first
  second.1 ++ second.2

/-- Resolve a list of audits in order, stopping at the first raise (the
state reached so far is kept; the caller models the transaction). -/
def resolveAll (env : Env) (user : User) (approved : Bool) :
    List Audit → DB → (Except Err Unit) × DB
  | [], db => (.ok (), db)
  | a :: rest, db =>
    match approve_or_reject_audit_and_apply (db.audits.length + 1) env a user approved db with
    | (.error e, db) => (.error e, db)
    | (.ok _, db) => resolveAll env user approved rest db

/-- `approve_or_reject_audits_and_apply`: the batch review orchestrator.
It runs under `@transaction.commit_on_success`, so a raise part-way
through rolls the store back to its initial state. -/
def approve_or_reject_audits_and_apply (env : Env) (audits : List Audit) (user : User)
    (approved : Bool) (db : DB) : (Except Err Unit) × DB :=
  match resolveAll env user approved (batch_resolution_order audits) db with
  | (.error e, _) => (.error e, db)
  | (.ok _, db') => (.ok (), db')

/-- Specification helper (not part of the source translation): the audit
rows produced by `writeAuditList` starting from a given audit counter. -/
def auditsFrom (model_name : String) (model_id : Value) (inst : Option Nat) (uid : Nat)
    (action : AuditAction) (pending : Bool) :
    Nat → List (String × Value × Value) → List Audit
  | _, [] => []
  | pk, it :: rest =>
    { pk := pk, model := model_name, model_id := model_id, inst := inst,
      field := some it.1, previous_value := it.2.1, current_value := it.2.2, user := uid,
      action := action, requires_auth := pending, ref := none, created := pk }
      :: auditsFrom model_name model_id inst uid action pending (pk + 1) rest

/-! ### Concrete fixtures (a small tenant-1 `Plot` model type with fields
`id` (primary key), `name` (required) and `width` (optional), and users at
various permission levels), used to evaluate the theorems on explicit
inputs. -/

def fxMetaId : FieldMeta :=
  { name := "id", null := false, blank := true, primary_key := true, is_fk := false,
    fk_target := none }

def fxMetaName : FieldMeta :=
  { name := "name", null := false, blank := false, primary_key := false, is_fk := false,
    fk_target := none }

def fxMetaWidth : FieldMeta :=
  { name := "width", null := true, blank := true, primary_key := false, is_fk := false,
    fk_target := none }

def fxPlot : ModelClass :=
  { name := "Plot", meta_fields := [fxMetaId, fxMetaName, fxMetaWidth],
    has_instance_attr := true }

def fxEnv : Env := { models := [fxPlot], udfs := [] }

def fxPermNameWWA : FieldPermission :=
  { model_name := "Plot", field_name := "name", role := 1, inst := 1, permission_level := 2 }

def fxPermWidthWD : FieldPermission :=
  { model_name := "Plot", field_name := "width", role := 1, inst := 1, permission_level := 3 }

def fxPermIdWD : FieldPermission :=
  { model_name := "Plot", field_name := "id", role := 1, inst := 1, permission_level := 3 }

def fxPermNameWD : FieldPermission :=
  { model_name := "Plot", field_name := "name", role := 1, inst := 1, permission_level := 3 }

def fxPermNameRO : FieldPermission :=
  { model_name := "Plot", field_name := "name", role := 1, inst := 1, permission_level := 1 }

def fxEditor : User :=
  { id := 10,
    get_instance_permissions := fun i m =>
      if i = 1 ∧ m = "Plot" then [fxPermNameWWA, fxPermWidthWD] else [],
    role_name := fun _ => "member" }

def fxReviewer : User :=
  { id := 20,
    get_instance_permissions := fun i m =>
      if i = 1 ∧ m = "Plot" then [fxPermIdWD, fxPermNameWD, fxPermWidthWD] else [],
    role_name := fun _ => "member" }

def fxWeak : User :=
  { id := 30,
    get_instance_permissions := fun i m =>
      if i = 1 ∧ m = "Plot" then [fxPermNameRO] else [],
    role_name := fun _ => "member" }

def fxAdmin : User :=
  { id := 40, get_instance_permissions := fun _ _ => [], role_name := fun _ => "administrator" }

def fxFresh : TrackedRecord :=
  { model_name := "Plot", meta_fields := [fxMetaId, fxMetaName, fxMetaWidth], inst := some 1,
    pk := none, fields := [("name", some "x"), ("width", some "5")], previous_state := [],
    has_been_masked := false, is_pending_insert := false }

def fxLive : TrackedRecord :=
  { model_name := "Plot", meta_fields := [fxMetaId, fxMetaName, fxMetaWidth], inst := some 1,
    pk := some "5", fields := [("name", some "y"), ("width", some "7")],
    previous_state := [("id", some "5"), ("name", some "x"), ("width", some "7")],
    has_been_masked := false, is_pending_insert := false }

def fxMasked : TrackedRecord := { fxLive with has_been_masked := true }

def fxPendingIns : TrackedRecord := { fxFresh with pk := some "9", is_pending_insert := true }

def fxDB : DB := { audits := [], next_audit_pk := 1, seq := 0, objects := [] }

def fxAuditA : Audit :=
  { pk := 1, model := "Plot", model_id := some "7", inst := some 1, field := some "id",
    previous_value := none, current_value := some "7", user := 10,
    action := AuditAction.insert, requires_auth := true, ref := none, created := 1 }

def fxAuditB : Audit :=
  { pk := 2, model := "Plot", model_id := some "7", inst := some 1, field := some "width",
    previous_value := none, current_value := some "5", user := 10,
    action := AuditAction.insert, requires_auth := true, ref := none, created := 2 }

def fxDB2 : DB := { audits := [fxAuditA, fxAuditB], next_audit_pk := 3, seq := 7, objects := [] }

def fxReview3 : Audit :=
  { pk := 3, model := "Plot", model_id := some "7", inst := some 1, field := some "width",
    previous_value := none, current_value := some "5", user := 20,
    action := AuditAction.pendingApprove, requires_auth := false, ref := none, created := 3 }

def fxAuditBres : Audit := { fxAuditB with ref := some 3 }

def fxDB3 : DB :=
  { audits := [fxAuditA, fxAuditBres, fxReview3], next_audit_pk := 4, seq := 7, objects := [] }

def fxResolvedA : Audit := { fxAuditA with ref := some 3 }

def fxC1rec : TrackedRecord :=
  { fxLive with fields := [("name", some "x"), ("width", some "7")] }

def fxC1audit : Audit :=
  { pk := 1, model := "Plot", model_id := some "5", inst := some 1, field := some "name",
    previous_value := some "x", current_value := some "y", user := 10,
    action := AuditAction.update, requires_auth := true, ref := none, created := 1 }

def fxC1obj : StoredObj :=
  { model := "Plot", pk := some "5", inst := some 1,
    fields := [("name", some "x"), ("width", some "7")] }

def fxC1db : DB :=
  { audits := [fxC1audit], next_audit_pk := 2, seq := 0, objects := [fxC1obj] }

def fxC2obj : StoredObj :=
  { model := "Plot", pk := some "7", inst := some 1, fields := [("width", some "5")] }

/-! ### Association-list and attribute lemmas -/

theorem lookup_cons_eq {α : Type} (k : String) (v : α) (l : List (String × α)) :
    ((k, v) :: l).lookup k = some v := by
  simp [List.lookup]

theorem lookup_cons_ne {α : Type} (g k : String) (v : α) (l : List (String × α))
    (h : g ≠ k) : ((k, v) :: l).lookup g = l.lookup g := by
  simp [List.lookup, beq_eq_false_iff_ne.mpr h]

theorem lookup_setVal_self (k : String) (v : Value) (l : List (String × Value)) :
    (setVal k v l).lookup k = some v := by
  induction l with
  | nil => simp [setVal, lookup_cons_eq]
  | cons p rest ih =>
    obtain ⟨k', v'⟩ := p
    by_cases h : k' = k
    · simp [setVal, h, lookup_cons_eq]
    · simp only [setVal, if_neg h]
      rw [lookup_cons_ne k k' v' _ (Ne.symm h)]
      exact ih

theorem lookup_setVal_ne (k : String) (v : Value) (l : List (String × Value)) (g : String)
    (h : g ≠ k) : (setVal k v l).lookup g = l.lookup g := by
  induction l with
  | nil =>
    show ((k, v) :: []).lookup g = ([] : List (String × Value)).lookup g
    rw [lookup_cons_ne g k v _ h]
  | cons p rest ih =>
    obtain ⟨k', v'⟩ := p
    by_cases hk : k' = k
    · subst hk
      have he : setVal k' v ((k', v') :: rest) = (k', v) :: rest := by simp [setVal]
      rw [he, lookup_cons_ne g k' v _ h, lookup_cons_ne g k' v' _ h]
    · have he : setVal k v ((k', v') :: rest) = (k', v') :: setVal k v rest := by
        simp [setVal, hk]
      rw [he]
      by_cases hg : g = k'
      · subst hg
        rw [lookup_cons_eq, lookup_cons_eq]
      · rw [lookup_cons_ne g k' v' _ hg, lookup_cons_ne g k' v' _ hg, ih]

theorem getattr_apply_change_self (r : TrackedRecord) (k : String) (v : Value) :
    (r.apply_change k v).getattr k = v := by
  by_cases h : k = "id"
  · simp [TrackedRecord.apply_change, TrackedRecord.getattr, h]
  · simp [TrackedRecord.apply_change, TrackedRecord.getattr, h, lookup_setVal_self]

theorem getattr_apply_change_ne (r : TrackedRecord) (k : String) (v : Value) (g : String)
    (h : g ≠ k) : (r.apply_change k v).getattr g = r.getattr g := by
  by_cases hk : k = "id"
  · subst hk
    simp [TrackedRecord.apply_change, TrackedRecord.getattr, h]
  · by_cases hg : g = "id"
    · simp [TrackedRecord.apply_change, TrackedRecord.getattr, hk, hg]
    · simp [TrackedRecord.apply_change, TrackedRecord.getattr, hk, hg,
        lookup_setVal_ne k v r.fields g h]

theorem apply_change_masked (r : TrackedRecord) (k : String) (v : Value) :
    (r.apply_change k v).has_been_masked = r.has_been_masked := by
  by_cases h : k = "id" <;> simp [TrackedRecord.apply_change, h]

theorem lookup_eq_some_of_mem_nodup {α : Type} {l : List (String × α)} {k : String} {v : α}
    (hnd : (l.map (fun p => p.1)).Nodup) (hm : (k, v) ∈ l) : l.lookup k = some v := by
  induction l with
  | nil => cases hm
  | cons p rest ih =>
    obtain ⟨k', v'⟩ := p
    simp only [List.map_cons, List.nodup_cons] at hnd
    rcases List.mem_cons.mp hm with h | h
    · cases h
      exact lookup_cons_eq k v rest
    · have hne : k ≠ k' := by
        intro he
        subst he
        exact hnd.1 (List.mem_map.mpr ⟨(k, v), h, rfl⟩)
      rw [lookup_cons_ne k k' v' _ hne]
      exact ih hnd.2 h

theorem mem_of_lookup_eq_some {α : Type} {l : List (String × α)} {k : String} {v : α}
    (h : l.lookup k = some v) : (k, v) ∈ l := by
  induction l with
  | nil => simp [List.lookup] at h
  | cons p rest ih =>
    obtain ⟨k', v'⟩ := p
    by_cases hk : k = k'
    · subst hk
      rw [lookup_cons_eq] at h
      cases h
      exact List.mem_cons_self _ _
    · rw [lookup_cons_ne k k' v' _ hk] at h
      exact List.mem_cons_of_mem _ (ih h)

theorem eraseP_eq_filter_of_nodup {α : Type} (l : List (String × α)) (f : String)
    (hnd : (l.map (fun p => p.1)).Nodup) :
    l.eraseP (fun p => decide (p.1 = f)) = l.filter (fun p => !decide (p.1 = f)) := by
  induction l with
  | nil => rfl
  | cons p rest ih =>
    obtain ⟨k', v'⟩ := p
    simp only [List.map_cons, List.nodup_cons] at hnd
    by_cases hk : k' = f
    · subst hk
      have : rest.filter (fun p => !decide (p.1 = k')) = rest := by
        apply List.filter_eq_self.mpr
        intro p hp
        simp only [Bool.not_eq_true', decide_eq_false_iff_not]
        intro he
        exact hnd.1 (List.mem_map.mpr ⟨p, hp, he⟩)
      simp [List.eraseP_cons, List.filter_cons, this]
    · simp [List.eraseP_cons, List.filter_cons, hk, ih hnd.2]

/-! ### Diff characterization -/

theorem updated_fields_eq (r : TrackedRecord) :
    r._updated_fields =
      (r.as_dict.filter (fun kv => decide (kv.1 ∉ TrackedRecord.do_not_track) &&
        decide (kv.2 ≠ (r.previous_state.lookup kv.1).getD none))).map
        (fun kv => (kv.1, (r.previous_state.lookup kv.1).getD none, kv.2)) := by
  have gen : ∀ (l : List (String × Value)) (acc : List (String × Value × Value)),
      l.foldl
        (fun acc kv =>
          if kv.1 ∈ TrackedRecord.do_not_track then acc
          else
            let old := (r.previous_state.lookup kv.1).getD none
            if kv.2 ≠ old then acc ++ [(kv.1, old, kv.2)] else acc)
        acc
      = acc ++ (l.filter (fun kv => decide (kv.1 ∉ TrackedRecord.do_not_track) &&
          decide (kv.2 ≠ (r.previous_state.lookup kv.1).getD none))).map
          (fun kv => (kv.1, (r.previous_state.lookup kv.1).getD none, kv.2)) := by
    intro l
    induction l with
    | nil => intro acc; simp
    | cons kv rest ih =>
      intro acc
      by_cases h1 : kv.1 ∈ TrackedRecord.do_not_track
      · rw [List.foldl_cons, if_pos h1, ih]
        simp only [List.filter_cons, Bool.and_eq_true, decide_eq_true_eq]
        rw [if_neg (by simp [h1])]
      · by_cases h2 : kv.2 ≠ (r.previous_state.lookup kv.1).getD none
        · rw [List.foldl_cons, if_neg h1]
          simp only [if_pos h2]
          rw [ih]
          simp only [List.filter_cons, Bool.and_eq_true, decide_eq_true_eq]
          rw [if_pos ⟨h1, h2⟩, List.map_cons, List.append_assoc]
          rfl
        · rw [List.foldl_cons, if_neg h1]
          simp only [if_neg h2]
          rw [ih]
          simp only [List.filter_cons, Bool.and_eq_true, decide_eq_true_eq]
          rw [if_neg (by tauto)]
  show r.as_dict.foldl _ [] = _
  rw [gen r.as_dict []]
  simp

theorem updated_fields_keys_nodup (r : TrackedRecord)
    (h : (r.as_dict.map (fun kv => kv.1)).Nodup) :
    (r._updated_fields.map (fun p => p.1)).Nodup := by
  rw [updated_fields_eq, List.map_map]
  have he : ((fun p : String × Value × Value => p.1) ∘
      (fun kv : String × Value => (kv.1, (r.previous_state.lookup kv.1).getD none, kv.2)))
      = fun kv : String × Value => kv.1 := rfl
  rw [he]
  exact h.sublist ((List.filter_sublist _).map _)

theorem mem_updated_fields (r : TrackedRecord) (f : String) (old new : Value)
    (h : (f, old, new) ∈ r._updated_fields) :
    old = (r.previous_state.lookup f).getD none ∧ (f, new) ∈ r.as_dict ∧
      new ≠ old ∧ f ∉ TrackedRecord.do_not_track := by
  rw [updated_fields_eq] at h
  rcases List.mem_map.mp h with ⟨kv, hkv, he⟩
  rcases List.mem_filter.mp hkv with ⟨hmem, hpred⟩
  simp only [Bool.and_eq_true, decide_eq_true_eq] at hpred
  cases he
  exact ⟨rfl, hmem, hpred.2, hpred.1⟩

/-! ### Audit-writing characterization -/

theorem make_audit_and_save_parts (mn : String) (mid : Value) (inst : Option Nat)
    (uid : Nat) (action : AuditAction) (db : DB) (f : String) (pv cv : Value) (p : Bool) :
    (make_audit_and_save mn mid inst uid action db f pv cv p).audits =
      db.audits ++ auditsFrom mn mid inst uid action p db.next_audit_pk [(f, pv, cv)] ∧
    (make_audit_and_save mn mid inst uid action db f pv cv p).next_audit_pk =
      db.next_audit_pk + 1 ∧
    (make_audit_and_save mn mid inst uid action db f pv cv p).objects = db.objects ∧
    (make_audit_and_save mn mid inst uid action db f pv cv p).seq = db.seq := by
  refine ⟨rfl, rfl, rfl, rfl⟩

theorem auditsFrom_cons (mn : String) (mid : Value) (inst : Option Nat) (uid : Nat)
    (action : AuditAction) (pending : Bool) (pk : Nat) (f : String) (pv cv : Value)
    (rest : List (String × Value × Value)) :
    auditsFrom mn mid inst uid action pending pk ((f, pv, cv) :: rest) =
      auditsFrom mn mid inst uid action pending pk [(f, pv, cv)]
        ++ auditsFrom mn mid inst uid action pending (pk + 1) rest := by
  rfl

theorem writeAuditList_audits (mn : String) (mid : Value) (inst : Option Nat) (uid : Nat)
    (action : AuditAction) (pending : Bool) (db : DB)
    (items : List (String × Value × Value)) :
    (writeAuditList mn mid inst uid action pending db items).audits =
      db.audits ++ auditsFrom mn mid inst uid action pending db.next_audit_pk items ∧
    (writeAuditList mn mid inst uid action pending db items).next_audit_pk =
      db.next_audit_pk + items.length ∧
    (writeAuditList mn mid inst uid action pending db items).objects = db.objects ∧
    (writeAuditList mn mid inst uid action pending db items).seq = db.seq := by
  induction items generalizing db with
  | nil => simp [writeAuditList, auditsFrom]
  | cons it rest ih =>
    obtain ⟨f, pv, cv⟩ := it
    have hstep : writeAuditList mn mid inst uid action pending db ((f, pv, cv) :: rest) =
        writeAuditList mn mid inst uid action pending
          (make_audit_and_save mn mid inst uid action db f pv cv pending) rest := by
      simp [writeAuditList]
    rw [hstep]
    rcases ih (make_audit_and_save mn mid inst uid action db f pv cv pending)
      with ⟨ha, hn, ho, hs⟩
    rcases make_audit_and_save_parts mn mid inst uid action db f pv cv pending
      with ⟨ma, mnn, mo, ms⟩
    refine ⟨?_, ?_, ?_, ?_⟩
    · rw [ha, ma, mnn, List.append_assoc]
      simp [auditsFrom]
    · rw [hn, mnn]
      simp only [List.length_cons]
      omega
    · rw [ho, mo]
    · rw [hs, ms]

theorem auditsFrom_countP_field (mn : String) (mid : Value) (inst : Option Nat) (uid : Nat)
    (action : AuditAction) (pending : Bool) (pk : Nat)
    (items : List (String × Value × Value)) (f : String) :
    (auditsFrom mn mid inst uid action pending pk items).countP
      (fun a => decide (a.field = some f))
    = items.countP (fun it => decide (it.1 = f)) := by
  induction items generalizing pk with
  | nil => rfl
  | cons it rest ih =>
    simp only [auditsFrom, List.countP_cons]
    rw [ih]
    simp

theorem auditsFrom_mem (mn : String) (mid : Value) (inst : Option Nat) (uid : Nat)
    (action : AuditAction) (pending : Bool) (pk : Nat)
    (items : List (String × Value × Value)) (a : Audit)
    (h : a ∈ auditsFrom mn mid inst uid action pending pk items) :
    ∃ it ∈ items, a.field = some it.1 ∧ a.previous_value = it.2.1 ∧
      a.current_value = it.2.2 ∧ a.requires_auth = pending ∧ a.action = action ∧
      a.model = mn ∧ a.model_id = mid := by
  induction items generalizing pk with
  | nil => cases h
  | cons it rest ih =>
    rcases List.mem_cons.mp h with he | hm
    · subst he
      exact ⟨it, List.mem_cons_self _ _, rfl, rfl, rfl, rfl, rfl, rfl, rfl⟩
    · rcases ih (pk + 1) hm with ⟨it', hit', hrest⟩
      exact ⟨it', List.mem_cons_of_mem _ hit', hrest⟩

/-! ### Pending-field processing characterization -/

theorem lookup_filter_ne {α : Type} (l : List (String × α)) (g f : String) (h : g ≠ f) :
    (l.filter (fun p => !decide (p.1 = f))).lookup g = l.lookup g := by
  induction l with
  | nil => rfl
  | cons p rest ih =>
    obtain ⟨k, v⟩ := p
    by_cases hk : k = f
    · subst hk
      rw [List.filter_cons_of_neg (by simp)]
      rw [lookup_cons_ne g k v _ h, ih]
    · rw [List.filter_cons_of_pos (by simp [hk])]
      by_cases hg : g = k
      · subst hg
        rw [lookup_cons_eq, lookup_cons_eq]
      · rw [lookup_cons_ne g k v _ hg, lookup_cons_ne g k v _ hg, ih]

theorem lookup_eq_none_of_not_mem_keys {α : Type} (l : List (String × α)) (k : String)
    (h : k ∉ l.map (fun p => p.1)) : l.lookup k = none := by
  induction l with
  | nil => rfl
  | cons p rest ih =>
    obtain ⟨k', v'⟩ := p
    simp only [List.map_cons, List.mem_cons] at h
    push_neg at h
    rw [lookup_cons_ne k k' v' _ h.1]
    exact ih h.2

theorem apply_change_preserves (r : TrackedRecord) (k : String) (v : Value) :
    (r.apply_change k v).has_been_masked = r.has_been_masked ∧
    (r.apply_change k v).is_pending_insert = r.is_pending_insert ∧
    (r.apply_change k v).model_name = r.model_name ∧
    (r.apply_change k v).inst = r.inst ∧
    (r.apply_change k v).meta_fields = r.meta_fields ∧
    (r.apply_change k v).previous_state = r.previous_state := by
  by_cases h : k = "id" <;> simp [TrackedRecord.apply_change, h]

theorem processPending_spec (pending : List String) :
    ∀ (updates : List (String × Value × Value)) (r : TrackedRecord),
    pending.Nodup → ((updates.map (fun p => p.1)).Nodup) →
    (∀ f ∈ pending, ∃ ov, updates.lookup f = some ov) →
    ∃ pas updates' r',
      processPendingFields pending updates r = .ok (pas, updates', r') ∧
      pas.map (fun p => p.1) = pending ∧
      (∀ f ov, (f, ov) ∈ pas → updates.lookup f = some ov) ∧
      updates' = updates.filter (fun p => !(pending.contains p.1)) ∧
      (∀ g, r'.getattr g = ((pas.lookup g).map (fun ov => ov.1)).getD (r.getattr g)) ∧
      r'.has_been_masked = r.has_been_masked ∧
      r'.is_pending_insert = r.is_pending_insert ∧
      r'.model_name = r.model_name ∧ r'.inst = r.inst ∧
      r'.meta_fields = r.meta_fields ∧ r'.previous_state = r.previous_state := by
  induction pending with
  | nil =>
    intro updates r _ _ _
    refine ⟨[], updates, r, rfl, rfl, by simp, by simp, by simp [List.lookup], rfl, rfl,
      rfl, rfl, rfl, rfl⟩
  | cons f rest ih =>
    intro updates r hnd hknd hsub
    simp only [List.nodup_cons] at hnd
    rcases hsub f (List.mem_cons_self _ _) with ⟨ov, hov⟩
    have herase : updates.eraseP (fun p => decide (p.1 = f)) =
        updates.filter (fun p => !decide (p.1 = f)) :=
      eraseP_eq_filter_of_nodup updates f hknd
    have hknd1 : ((updates.filter (fun p => !decide (p.1 = f))).map
        (fun p => p.1)).Nodup :=
      hknd.sublist ((List.filter_sublist _).map _)
    have hsub1 : ∀ g ∈ rest, ∃ ov',
        (updates.filter (fun p => !decide (p.1 = f))).lookup g = some ov' := by
      intro g hg
      rcases hsub g (List.mem_cons_of_mem _ hg) with ⟨ov', hov'⟩
      have hgf : g ≠ f := fun he => hnd.1 (he ▸ hg)
      exact ⟨ov', by rw [lookup_filter_ne _ _ _ hgf]; exact hov'⟩
    rcases ih (updates.filter (fun p => !decide (p.1 = f))) (r.apply_change f ov.1)
      hnd.2 hknd1 hsub1 with
      ⟨pas', updates'', r'', heq, hmap, hmem, hupd, hget, hmask, hpend, hmn, hinst, hmeta, hprev⟩
    refine ⟨(f, ov) :: pas', updates'', r'', ?_, ?_, ?_, ?_, ?_, ?_, ?_, ?_, ?_, ?_, ?_⟩
    · show (match updates.lookup f with
        | none => Except.error Err.keyError
        | some ov => _) = _
      rw [hov]
      simp only [herase, heq]
    · simp [hmap]
    · intro g ov' hg
      rcases List.mem_cons.mp hg with he | hm
      · cases he
        exact hov
      · have hgrest : g ∈ rest := by
          rw [← hmap]
          exact List.mem_map.mpr ⟨(g, ov'), hm, rfl⟩
        have hgf : g ≠ f := fun he => hnd.1 (he ▸ hgrest)
        have := hmem g ov' hm
        rw [lookup_filter_ne _ _ _ hgf] at this
        exact this
    · rw [hupd, List.filter_filter]
      apply List.filter_congr
      intro p _
      simp only [List.contains_cons, Bool.not_or, Bool.and_comm]
      rfl
    · intro g
      by_cases hg : g = f
      · subst hg
        rw [lookup_cons_eq]
        have hnp : pas'.lookup g = none := by
          apply lookup_eq_none_of_not_mem_keys
          rw [hmap]
          exact hnd.1
        rw [hget g, hnp]
        simp [getattr_apply_change_self]
      · rw [lookup_cons_ne g f ov _ hg, hget g,
          getattr_apply_change_ne r f ov.1 g hg]
    · rw [hmask, (apply_change_preserves r f ov.1).1]
    · rw [hpend, (apply_change_preserves r f ov.1).2.1]
    · rw [hmn, (apply_change_preserves r f ov.1).2.2.1]
    · rw [hinst, (apply_change_preserves r f ov.1).2.2.2.1]
    · rw [hmeta, (apply_change_preserves r f ov.1).2.2.2.2.1]
    · rw [hprev, (apply_change_preserves r f ov.1).2.2.2.2.2]

/-! ### Save-pipeline helper lemmas -/

theorem save_base_parts (db : DB) (o : StoredObj) :
    (db.save_base o).audits = db.audits ∧
    (db.save_base o).next_audit_pk = db.next_audit_pk ∧
    (db.save_base o).seq = db.seq := by
  unfold DB.save_base
  split <;> exact ⟨rfl, rfl, rfl⟩

theorem populate_parts (r : TrackedRecord) :
    r.populate_previous_state.fields = r.fields ∧
    r.populate_previous_state.pk = r.pk ∧
    r.populate_previous_state.has_been_masked = r.has_been_masked ∧
    r.populate_previous_state.is_pending_insert = r.is_pending_insert ∧
    r.populate_previous_state.model_name = r.model_name ∧
    r.populate_previous_state.inst = r.inst ∧
    r.populate_previous_state.meta_fields = r.meta_fields := by
  unfold TrackedRecord.populate_previous_state
  split <;> exact ⟨rfl, rfl, rfl, rfl, rfl, rfl, rfl⟩

theorem ust_save_parts (r : TrackedRecord) (db : DB) :
    ((UserTrackable.save_with_user r db).2).audits = db.audits ∧
    ((UserTrackable.save_with_user r db).2).next_audit_pk = db.next_audit_pk ∧
    ((UserTrackable.save_with_user r db).1).fields = r.fields ∧
    ((UserTrackable.save_with_user r db).1).model_name = r.model_name ∧
    ((UserTrackable.save_with_user r db).1).inst = r.inst ∧
    ((UserTrackable.save_with_user r db).1).is_pending_insert = r.is_pending_insert ∧
    ((UserTrackable.save_with_user r db).1).has_been_masked = r.has_been_masked := by
  unfold UserTrackable.save_with_user
  match hpk : r.pk with
  | some v =>
    simp only [hpk]
    refine ⟨(save_base_parts db _).1, (save_base_parts db _).2.1, (populate_parts r).1,
      (populate_parts r).2.2.2.2.1, (populate_parts r).2.2.2.2.2.1,
      (populate_parts r).2.2.2.1, (populate_parts r).2.2.1⟩
  | none =>
    simp only [hpk]
    have hnx : (DB.nextval db).2.audits = db.audits ∧
        (DB.nextval db).2.next_audit_pk = db.next_audit_pk := ⟨rfl, rfl⟩
    constructor
    · rw [(save_base_parts _ _).1]
      exact hnx.1
    constructor
    · rw [(save_base_parts _ _).2.1]
      exact hnx.2
    exact ⟨(populate_parts _).1, (populate_parts _).2.2.2.2.1,
      (populate_parts _).2.2.2.2.2.1, (populate_parts _).2.2.2.1, (populate_parts _).2.2.1⟩

theorem get_perms_set_congr (u : User) (r r₂ : TrackedRecord) (b : Bool)
    (hinst : r₂.inst = r.inst) (hmn : r₂.model_name = r.model_name) :
    Authorizable._get_perms_set u r₂ b = Authorizable._get_perms_set u r b := by
  unfold Authorizable._get_perms_set
  rw [hinst, hmn]

theorem user_can_create_congr (u : User) (r r₂ : TrackedRecord) (b : Bool)
    (hinst : r₂.inst = r.inst) (hmn : r₂.model_name = r.model_name)
    (hmeta : r₂.meta_fields = r.meta_fields) :
    Authorizable.user_can_create u r₂ b = Authorizable.user_can_create u r b := by
  unfold Authorizable.user_can_create
  rw [get_perms_set_congr u r r₂ b hinst hmn]
  have : r₂._fields_required_for_create = r._fields_required_for_create := by
    unfold TrackedRecord._fields_required_for_create
    rw [hmeta]
  rw [this]

theorem authorizable_ok_inv (env : Env) (u : User) (r : TrackedRecord) (db : DB)
    (r' : TrackedRecord) (db' : DB)
    (hsave : Authorizable.save_with_user env u r db = (.ok r', db')) :
    Auditable.save_with_user env u r false db = (.ok r', db') := by
  unfold Authorizable.save_with_user at hsave
  by_cases hm : r.has_been_masked
  · rw [if_pos hm] at hsave
    cases hsave
  · rw [if_neg hm] at hsave
    by_cases hpk : r.pk = none
    · simp only [hpk, decide_True, Bool.not_true, Bool.false_eq_true, if_false] at hsave
      match hcc : Authorizable.user_can_create u r false with
      | .error e =>
        rw [hcc] at hsave
        cases hsave
      | .ok can =>
        rw [hcc] at hsave
        match can with
        | true => simpa using hsave
        | false => simp at hsave
    · simp only [hpk, decide_False, Bool.not_false, if_true] at hsave
      match hps : Authorizable._get_perms_set u r false with
      | .error e =>
        rw [hps] at hsave
        cases hsave
      | .ok writable =>
        rw [hps] at hsave
        dsimp only at hsave
        by_cases hall : ((r._updated_fields.map (fun x => x.1)).all
            (fun f => writable.contains f)) = true
        · rwa [if_pos hall] at hsave
        · rw [if_neg hall] at hsave
          cases hsave

theorem mem_pending_fields_iff (u : User) (r : TrackedRecord) (i : Nat)
    (hinst : r.inst = some i) (f : String) :
    f ∈ Authorizable.get_pending_fields u r ↔
      ∃ p ∈ u.get_instance_permissions i r.model_name, p.field_name = f ∧
        p.permission_level = FieldPermission.WRITE_WITH_AUDIT ∧
        f ∈ r._updated_fields.map (fun x => x.1) := by
  unfold Authorizable.get_pending_fields
  rw [hinst]
  have hcm : ∀ (l : List String) (a : String), (l.contains a = true) ↔ a ∈ l := by
    intro l a
    simp
  simp only [List.mem_map, List.mem_filter, Bool.and_eq_true, decide_eq_true_eq, hcm]
  constructor
  · rintro ⟨p, ⟨hp, hlvl, hcont⟩, rfl⟩
    exact ⟨p, hp, rfl, hlvl, hcont⟩
  · rintro ⟨p, hp, rfl, hlvl, hmem⟩
    exact ⟨p, ⟨hp, hlvl, hmem⟩, rfl⟩

theorem pending_fields_nodup (u : User) (r : TrackedRecord) (i : Nat)
    (hinst : r.inst = some i)
    (h : ((u.get_instance_permissions i r.model_name).map (fun p => p.field_name)).Nodup) :
    (Authorizable.get_pending_fields u r).Nodup := by
  unfold Authorizable.get_pending_fields
  rw [hinst]
  exact h.sublist ((List.filter_sublist _).map _)

theorem auditable_save_decomp (env : Env) (u : User) (r : TrackedRecord) (bypass : Bool)
    (db : DB) (i : Nat) (r' : TrackedRecord) (db' : DB)
    (hinst : r.inst = some i)
    (hkeys : (r.as_dict.map (fun kv => kv.1)).Nodup)
    (hpermnd : ((u.get_instance_permissions i r.model_name).map (fun p => p.field_name)).Nodup)
    (hsave : Auditable.save_with_user env u r bypass db = (.ok r', db')) :
    ∃ pas updates' mid U P,
      pas.map (fun p => p.1) = Authorizable.get_pending_fields u r ∧
      (∀ f ov, (f, ov) ∈ pas → r._updated_fields.lookup f = some ov) ∧
      updates' = r._updated_fields.filter
        (fun p => !((Authorizable.get_pending_fields u r).contains p.1)) ∧
      (∀ g, g ≠ "id" →
        r'.getattr g = ((pas.lookup g).map (fun ov => ov.1)).getD (r.getattr g)) ∧
      db'.audits = db.audits
        ++ auditsFrom r.model_name mid r.inst u.id
            (if r.pk = none then AuditAction.insert else AuditAction.update) false
            db.next_audit_pk U
        ++ auditsFrom r.model_name mid r.inst u.id
            (if r.pk = none then AuditAction.insert else AuditAction.update) true
            (db.next_audit_pk + U.length) P ∧
      ((U = updates' ∧ P = pas) ∨
       (U = updates' ++ [("id", (none, mid))] ∧ P = pas) ∨
       (U = updates' ∧ P = pas ++ [("id", (none, mid))])) ∧
      (r'.is_pending_insert = true →
        db'.objects = db.objects ∧ db'.seq = db.seq + 1 ∧
        mid = some (toString (db.seq + 1)) ∧ r'.pk = mid ∧
        (r.pk = none → U = updates' ∧ P = pas ++ [("id", (none, mid))])) := by
  unfold Auditable.save_with_user at hsave
  by_cases hp0 : r.is_pending_insert = true
  · rw [if_pos hp0] at hsave
    cases hsave
  rw [if_neg hp0] at hsave
  have hund : (r._updated_fields.map (fun p => p.1)).Nodup :=
    updated_fields_keys_nodup r hkeys
  have hpnd : (Authorizable.get_pending_fields u r).Nodup :=
    pending_fields_nodup u r i hinst hpermnd
  have hsub : ∀ f ∈ Authorizable.get_pending_fields u r,
      ∃ ov, r._updated_fields.lookup f = some ov := by
    intro f hf
    rcases (mem_pending_fields_iff u r i hinst f).mp hf with ⟨p, _, _, _, hmem⟩
    rcases List.mem_map.mp hmem with ⟨⟨g, ov⟩, hm, hg⟩
    cases hg
    exact ⟨ov, lookup_eq_some_of_mem_nodup hund hm⟩
  rcases processPending_spec (Authorizable.get_pending_fields u r) r._updated_fields r
    hpnd hund hsub with
    ⟨pas, updates', r₂, heq, hmap, hmem, hupd, hget, hmask2, hpend2, hmn2, hinst2, hmeta2,
      hprev2⟩
  dsimp only at hsave
  rw [heq] at hsave
  dsimp only at hsave
  rw [user_can_create_congr u r r₂ true hinst2 hmn2 hmeta2] at hsave
  match hcc : Authorizable.user_can_create u r true with
  | .error e =>
    rw [hcc] at hsave
    cases hsave
  | .ok canDirect =>
    rw [hcc] at hsave
    dsimp only at hsave
    by_cases hcond : (canDirect || !(decide (r₂.pk = none)) || bypass) = true
    · -- the record is persisted through the store
      rw [if_pos hcond] at hsave
      rcases hust : UserTrackable.save_with_user r₂ db with ⟨rS, dbS⟩
      rw [hust] at hsave
      dsimp only at hsave
      rcases ust_save_parts r₂ db with ⟨hA, hN, hF, hMn, hI, hP, hM⟩
      rw [hust] at hA hN hF hMn hI hP hM
      dsimp only at hA hN hF hMn hI hP hM
      unfold finishSaveAudits at hsave
      dsimp only at hsave
      rcases hpr : (if (decide (r.pk = none)) = true then
          if rS.is_pending_insert = true then
            (updates', pas ++ [(("id" : String), ((none : Value), rS.pk))])
          else (updates' ++ [(("id" : String), ((none : Value), rS.pk))], pas)
        else (updates', pas)) with ⟨U, P⟩
      rw [hpr] at hsave
      dsimp only at hsave
      simp only [Prod.mk.injEq, Except.ok.injEq] at hsave
      obtain ⟨hr', hdb'⟩ := hsave
      subst hr'
      subst hdb'
      refine ⟨pas, updates', rS.pk, U, P, hmap, hmem, hupd, ?_, ?_, ?_, ?_⟩
      · intro g hg
        have : rS.getattr g = r₂.getattr g := by
          unfold TrackedRecord.getattr
          rw [if_neg hg, if_neg hg, hF]
        rw [this]
        exact hget g
      · rw [hMn]
        rcases writeAuditList_audits r₂.model_name rS.pk r₂.inst u.id
          (if (decide (r.pk = none)) = true then AuditAction.insert else AuditAction.update)
          false dbS U with ⟨w1a, w1n, _, _⟩
        rcases writeAuditList_audits r₂.model_name rS.pk r₂.inst u.id
          (if (decide (r.pk = none)) = true then AuditAction.insert else AuditAction.update)
          true (writeAuditList r₂.model_name rS.pk r₂.inst u.id
            (if (decide (r.pk = none)) = true then AuditAction.insert
             else AuditAction.update) false dbS U) P with ⟨w2a, _, _, _⟩
        rw [w2a, w1a, w1n, hA, hN, hmn2, hinst2]
        have hdec : (if (decide (r.pk = none)) = true then AuditAction.insert
            else AuditAction.update) =
            (if r.pk = none then AuditAction.insert else AuditAction.update) := by
          by_cases h : r.pk = none <;> simp [h]
        rw [hdec, List.append_assoc]
      · by_cases hii : r.pk = none
        · simp only [hii, decide_True, if_true] at hpr
          by_cases hrsp : rS.is_pending_insert = true
          · rw [if_pos hrsp] at hpr
            obtain ⟨hU, hP⟩ := Prod.mk.injEq .. ▸ hpr
            exact Or.inr (Or.inr ⟨hU.symm, hP.symm⟩)
          · rw [if_neg hrsp] at hpr
            obtain ⟨hU, hP⟩ := Prod.mk.injEq .. ▸ hpr
            exact Or.inr (Or.inl ⟨hU.symm, hP.symm⟩)
        · simp only [hii, decide_False] at hpr
          obtain ⟨hU, hP⟩ := Prod.mk.injEq .. ▸ hpr
          exact Or.inl ⟨hU.symm, hP.symm⟩
      · intro hpi
        rw [hP, hpend2] at hpi
        exact absurd hpi hp0
    · -- reserved identifier, pending insert
      rw [if_neg hcond] at hsave
      match hgc : env.get_model_class r₂.model_name with
      | none =>
        rw [hgc] at hsave
        cases hsave
      | some cls =>
        rw [hgc] at hsave
        dsimp only [DB.nextval] at hsave
        unfold finishSaveAudits at hsave
        dsimp only at hsave
        rcases hpr : (if (decide (r.pk = none)) = true then
            if true = true then
              (updates', pas ++ [(("id" : String),
                ((none : Value), (some (toString (db.seq + 1)) : Value)))])
            else (updates' ++ [(("id" : String),
              ((none : Value), (some (toString (db.seq + 1)) : Value)))], pas)
          else (updates', pas)) with ⟨U, P⟩
        rw [hpr] at hsave
        dsimp only at hsave
        simp only [Prod.mk.injEq, Except.ok.injEq] at hsave
        obtain ⟨hr', hdb'⟩ := hsave
        subst hr'
        subst hdb'
        refine ⟨pas, updates', some (toString (db.seq + 1)), U, P, hmap, hmem, hupd,
          ?_, ?_, ?_, ?_⟩
        · intro g hg
          have hrec : TrackedRecord.getattr
              { r₂ with pk := some (toString (db.seq + 1)), is_pending_insert := true } g
              = r₂.getattr g := by
            unfold TrackedRecord.getattr
            rw [if_neg hg, if_neg hg]
          rw [hrec]
          exact hget g
        · rcases writeAuditList_audits r₂.model_name (some (toString (db.seq + 1))) r₂.inst
            u.id (if (decide (r.pk = none)) = true then AuditAction.insert
              else AuditAction.update) false { db with seq := db.seq + 1 } U with
            ⟨w1a, w1n, _, _⟩
          rcases writeAuditList_audits r₂.model_name (some (toString (db.seq + 1))) r₂.inst
            u.id (if (decide (r.pk = none)) = true then AuditAction.insert
              else AuditAction.update) true
            (writeAuditList r₂.model_name (some (toString (db.seq + 1))) r₂.inst u.id
              (if (decide (r.pk = none)) = true then AuditAction.insert
               else AuditAction.update) false { db with seq := db.seq + 1 } U) P with
            ⟨w2a, _, _, _⟩
          rw [w2a, w1a, w1n, hmn2, hinst2]
          have hdec : (if (decide (r.pk = none)) = true then AuditAction.insert
              else AuditAction.update) =
              (if r.pk = none then AuditAction.insert else AuditAction.update) := by
            by_cases h : r.pk = none <;> simp [h]
          rw [hdec, List.append_assoc]
        · by_cases hii : r.pk = none
          · simp only [hii, decide_True, if_true] at hpr
            obtain ⟨hU, hP⟩ := Prod.mk.injEq .. ▸ hpr
            exact Or.inr (Or.inr ⟨hU.symm, hP.symm⟩)
          · simp only [hii, decide_False] at hpr
            obtain ⟨hU, hP⟩ := Prod.mk.injEq .. ▸ hpr
            exact Or.inl ⟨hU.symm, hP.symm⟩
        · intro _
          rcases writeAuditList_audits r₂.model_name (some (toString (db.seq + 1))) r₂.inst
            u.id (if (decide (r.pk = none)) = true then AuditAction.insert
              else AuditAction.update) false { db with seq := db.seq + 1 } U with
            ⟨_, _, w1o, w1s⟩
          rcases writeAuditList_audits r₂.model_name (some (toString (db.seq + 1))) r₂.inst
            u.id (if (decide (r.pk = none)) = true then AuditAction.insert
              else AuditAction.update) true
            (writeAuditList r₂.model_name (some (toString (db.seq + 1))) r₂.inst u.id
              (if (decide (r.pk = none)) = true then AuditAction.insert
               else AuditAction.update) false { db with seq := db.seq + 1 } U) P with
            ⟨_, _, w2o, w2s⟩
          refine ⟨?_, ?_, rfl, rfl, ?_⟩
          · rw [w2o, w1o]
          · rw [w2s, w1s]
          · intro hii
            simp only [hii, decide_True, if_true] at hpr
            obtain ⟨hU, hP⟩ := Prod.mk.injEq .. ▸ hpr
            exact ⟨hU.symm, hP.symm⟩

/-! ### Resolution helper lemmas -/

theorem verifyPermLoop_err (field : Option String) (l : List FieldPermission)
    (h : ∀ p ∈ l, some p.field_name = field →
      p.permission_level ≠ FieldPermission.WRITE_DIRECTLY) :
    verifyPermLoop field l = .error .authorize := by
  induction l with
  | nil => rfl
  | cons p rest ih =>
    unfold verifyPermLoop
    by_cases hf : some p.field_name = field
    · rw [if_pos hf, if_neg (h p (List.mem_cons_self _ _) hf)]
    · rw [if_neg hf]
      exact ih (fun q hq => h q (List.mem_cons_of_mem _ hq))

theorem batch_order_singleton (a : Audit) : batch_resolution_order [a] = [a] := by
  unfold batch_resolution_order
  by_cases hf : a.field = some "id"
  · by_cases hp : a.model = "Plot"
    · simp [hf, hp]
    · by_cases ht : a.model = "Tree"
      · simp [hf, hp, ht]
      · simp [hf, hp, ht]
  · simp [hf]

/-! ### Claim theorems -/

/-- C3: an Audit's `ref` is set at most once through the resolution entry
points: calling either the pending resolution path
(`approve_or_reject_audit_and_apply`) or the after-the-fact review path
(`approve_or_reject_existing_edit`) on an audit whose `ref` is already
non-null raises the already-resolved error and leaves the store — hence
the existing `ref` — unchanged. -/
theorem C3_already_resolved_guard (fuel : Nat) (env : Env) (audit : Audit) (u : User)
    (approved : Bool) (db : DB) (rpk : Nat) (href : audit.ref = some rpk) :
    approve_or_reject_audit_and_apply (fuel + 1) env audit u approved db
      = (.error .alreadyResolved, db) ∧
    approve_or_reject_existing_edit env audit u approved db
      = (.error .alreadyResolved, db) := by
  constructor
  · unfold approve_or_reject_audit_and_apply
    rw [if_pos (by simp [href])]
  · unfold approve_or_reject_existing_edit
    rw [if_pos (by simp [href])]

/-- C3 witness: the guard evaluated on the concrete already-resolved
identity audit. -/
theorem C3_already_resolved_guard_witness :
    approve_or_reject_audit_and_apply 5 fxEnv fxResolvedA fxReviewer true fxDB3
      = (.error .alreadyResolved, fxDB3) ∧
    approve_or_reject_existing_edit fxEnv fxResolvedA fxReviewer true fxDB3
      = (.error .alreadyResolved, fxDB3) :=
  C3_already_resolved_guard 4 fxEnv fxResolvedA fxReviewer true fxDB3 3 rfl

/-- C10: a record already marked as a pending insert cannot be saved
again: `save_with_user` raises an exception (before persisting anything or
writing any audit row — the store comes back unchanged). -/
theorem C10_pending_insert_save_raises (env : Env) (u : User) (r : TrackedRecord)
    (db : DB) (h : r.is_pending_insert = true) :
    ∃ e, Authorizable.save_with_user env u r db = (.error e, db) := by
  have haud : ∀ b, Auditable.save_with_user env u r b db = (.error .alreadySaved, db) := by
    intro b
    unfold Auditable.save_with_user
    rw [if_pos h]
  unfold Authorizable.save_with_user
  by_cases hm : r.has_been_masked = true
  · exact ⟨.authorize, by rw [if_pos hm]⟩
  rw [if_neg hm]
  by_cases hpk : r.pk = none
  · simp only [hpk, decide_True, Bool.not_true, Bool.false_eq_true, if_false]
    match hcc : Authorizable.user_can_create u r false with
    | .error e => exact ⟨e, rfl⟩
    | .ok true => exact ⟨.alreadySaved, haud false⟩
    | .ok false => exact ⟨.authorize, rfl⟩
  · simp only [hpk, decide_False, Bool.not_false, if_true]
    match hps : Authorizable._get_perms_set u r false with
    | .error e => exact ⟨e, rfl⟩
    | .ok writable =>
      dsimp only
      by_cases hall : ((r._updated_fields.map (fun x => x.1)).all
          (fun f => writable.contains f)) = true
      · exact ⟨.alreadySaved, by rw [if_pos hall]; exact haud false⟩
      · exact ⟨.authorize, by rw [if_neg hall]⟩

/-- C10 witness: saving the concrete pending-insert record raises. -/
theorem C10_pending_insert_save_raises_witness :
    ∃ e, Authorizable.save_with_user fxEnv fxEditor fxPendingIns fxDB = (.error e, fxDB) :=
  C10_pending_insert_save_raises fxEnv fxEditor fxPendingIns fxDB rfl

/-- C8: once a record has been masked, the public mutating operations
(`save_with_user`, `delete_with_user`) raise the masked-object
authorization error with the store unchanged, and no record operation
clears the mask flag (re-masking, attribute writes and snapshot refresh
all keep it set), so masking is irreversible within the record's
in-memory lifetime. -/
theorem C8_masked_record_refuses_mutation (env : Env) (u u2 u3 : User)
    (r : TrackedRecord) (db db2 : DB) (h : r.has_been_masked = true) :
    Authorizable.save_with_user env u r db = (.error .authorize, db) ∧
    Authorizable.delete_with_user u2 r db2 = (.error .authorize, db2) ∧
    (∀ r', Authorizable.mask_unauthorized_fields u3 r = .ok r' →
      r'.has_been_masked = true) ∧
    (∀ k v, (r.apply_change k v).has_been_masked = true) ∧
    r.populate_previous_state.has_been_masked = true := by
  refine ⟨?_, ?_, ?_, ?_, ?_⟩
  · unfold Authorizable.save_with_user
    rw [if_pos h]
  · unfold Authorizable.delete_with_user
    rw [if_pos h]
  · intro r' hr'
    unfold Authorizable.mask_unauthorized_fields at hr'
    match hi : r.inst with
    | none =>
      rw [hi] at hr'
      cases hr'
    | some i =>
      rw [hi] at hr'
      dsimp only at hr'
      cases hr'
      rfl
  · intro k v
    rw [apply_change_masked, h]
  · rw [(populate_parts r).2.2.1, h]

/-- C8 witness: the masked concrete record refuses both mutations and the
flag stays set. -/
theorem C8_masked_record_refuses_mutation_witness :
    Authorizable.save_with_user fxEnv fxEditor fxMasked fxDB = (.error .authorize, fxDB) ∧
    Authorizable.delete_with_user fxEditor fxMasked fxDB = (.error .authorize, fxDB) ∧
    (∀ r', Authorizable.mask_unauthorized_fields fxWeak fxMasked = .ok r' →
      r'.has_been_masked = true) ∧
    (∀ k v, (fxMasked.apply_change k v).has_been_masked = true) ∧
    fxMasked.populate_previous_state.has_been_masked = true :=
  C8_masked_record_refuses_mutation fxEnv fxEditor fxEditor fxWeak fxMasked fxDB fxDB rfl

/-- C7: saving an existing record (non-null primary key) whose diff
contains a field on which the user holds no write permission (no
permission row of level at least WRITE_WITH_AUDIT) aborts the whole save
with an authorization error and leaves the store unchanged: the record is
not persisted and no audit row is written. -/
theorem C7_unwritable_field_aborts_save (env : Env) (u : User) (r : TrackedRecord)
    (db : DB) (i : Nat) (f : String) (old new : Value)
    (hpk : r.pk ≠ none)
    (hinst : r.inst = some i)
    (hupd : (f, old, new) ∈ r._updated_fields)
    (hperm : ∀ p ∈ u.get_instance_permissions i r.model_name,
      p.field_name = f → p.permission_level < FieldPermission.WRITE_WITH_AUDIT) :
    Authorizable.save_with_user env u r db = (.error .authorize, db) := by
  unfold Authorizable.save_with_user
  by_cases hm : r.has_been_masked = true
  · rw [if_pos hm]
  rw [if_neg hm]
  rw [if_pos (show (!decide (r.pk = none)) = true by simp [hpk])]
  have hps : Authorizable._get_perms_set u r false =
      .ok (((u.get_instance_permissions i r.model_name).filter
        (fun p => p.allows_writes)).map (fun p => p.field_name)) := by
    unfold Authorizable._get_perms_set
    rw [hinst]
    rfl
  rw [hps]
  dsimp only
  have hall : ¬(((r._updated_fields.map (fun x => x.1)).all
      (fun g => (((u.get_instance_permissions i r.model_name).filter
        (fun p => p.allows_writes)).map (fun p => p.field_name)).contains g)) = true) := by
    intro hallt
    have hf : f ∈ r._updated_fields.map (fun x => x.1) :=
      List.mem_map.mpr ⟨(f, old, new), hupd, rfl⟩
    have := List.all_eq_true.mp hallt f hf
    have hfm : f ∈ ((u.get_instance_permissions i r.model_name).filter
        (fun p => p.allows_writes)).map (fun p => p.field_name) := by
      simpa using this
    rcases List.mem_map.mp hfm with ⟨p, hpf, hpe⟩
    rcases List.mem_filter.mp hpf with ⟨hpmem, hpw⟩
    have hlt := hperm p hpmem hpe
    unfold FieldPermission.allows_writes at hpw
    simp only [decide_eq_true_eq] at hpw
    omega
  rw [if_neg hall]

/-- C7 witness: the read-only user's edit of `name` on the live record is
rejected outright. -/
theorem C7_unwritable_field_aborts_save_witness :
    Authorizable.save_with_user fxEnv fxWeak fxLive fxDB = (.error .authorize, fxDB) := by
  refine C7_unwritable_field_aborts_save fxEnv fxWeak fxLive fxDB 1 "name" (some "x")
    (some "y") (by decide) rfl ?_ ?_
  · decide
  · decide

/-- C9: the delete-permission check is total on records with a tenant and
returns true exactly when the user's role for the tenant is the
administrator role or the user's write-permission set (level at least
WRITE_WITH_AUDIT) covers every tracked field of the record. -/
theorem C9_user_can_delete_iff (u : User) (r : TrackedRecord) (i : Nat)
    (hinst : r.inst = some i) :
    (∃ b, Authorizable.user_can_delete u r = .ok b) ∧
    (Authorizable.user_can_delete u r = .ok true ↔
      (u.role_name i = "administrator" ∨
        ∀ f ∈ r.tracked_fields, ∃ p ∈ u.get_instance_permissions i r.model_name,
          p.field_name = f ∧ FieldPermission.WRITE_WITH_AUDIT ≤ p.permission_level)) := by
  unfold Authorizable.user_can_delete
  rw [hinst]
  dsimp only
  by_cases hadm : u.role_name i = "administrator"
  · rw [if_pos hadm]
    exact ⟨⟨true, rfl⟩, by simp [hadm]⟩
  · rw [if_neg hadm]
    have hps : Authorizable._get_perms_set u r false =
        .ok (((u.get_instance_permissions i r.model_name).filter
          (fun p => p.allows_writes)).map (fun p => p.field_name)) := by
      unfold Authorizable._get_perms_set
      rw [hinst]
      rfl
    rw [hps]
    dsimp only
    refine ⟨⟨_, rfl⟩, ?_⟩
    have hcm : ∀ (l : List String) (a : String), (l.contains a = true) ↔ a ∈ l := by
      intro l a
      simp
    rw [show (Except.ok (r.tracked_fields.all (fun f =>
        (((u.get_instance_permissions i r.model_name).filter
          (fun p => p.allows_writes)).map (fun p => p.field_name)).contains f))
        = (Except.ok true : Except Err Bool)) ↔
        (r.tracked_fields.all (fun f =>
          (((u.get_instance_permissions i r.model_name).filter
            (fun p => p.allows_writes)).map (fun p => p.field_name)).contains f)) = true
      from by simp]
    constructor
    · intro hall
      right
      intro f hf
      have := List.all_eq_true.mp hall f hf
      rw [hcm] at this
      rcases List.mem_map.mp this with ⟨p, hpf, hpe⟩
      rcases List.mem_filter.mp hpf with ⟨hpmem, hpw⟩
      refine ⟨p, hpmem, hpe, ?_⟩
      unfold FieldPermission.allows_writes at hpw
      simpa using hpw
    · intro hor
      rcases hor with hadm' | hcov
      · exact absurd hadm' hadm
      · apply List.all_eq_true.mpr
        intro f hf
        rcases hcov f hf with ⟨p, hpmem, hpe, hplvl⟩
        rw [hcm]
        refine List.mem_map.mpr ⟨p, List.mem_filter.mpr ⟨hpmem, ?_⟩, hpe⟩
        unfold FieldPermission.allows_writes
        simpa using hplvl

/-- C9 witness: the administrator with no explicit field grants may delete
the live record. -/
theorem C9_user_can_delete_iff_witness :
    Authorizable.user_can_delete fxAdmin fxLive = .ok true :=
  (C9_user_can_delete_iff fxAdmin fxLive 1 rfl).2.mpr (Or.inl rfl)

theorem foldl_partition_field (l : List Audit) (x y : List Audit) :
    l.foldl (fun acc a =>
      if a.field = some "id" then (acc.1, acc.2 ++ [a]) else (acc.1 ++ [a], acc.2)) (x, y)
    = (x ++ l.filter (fun a => !decide (a.field = some "id")),
       y ++ l.filter (fun a => decide (a.field = some "id"))) := by
  induction l generalizing x y with
  | nil => simp
  | cons a rest ih =>
    by_cases h : a.field = some "id"
    · rw [List.foldl_cons, if_pos h, ih,
        List.filter_cons_of_neg (by simp [h]), List.filter_cons_of_pos (by simp [h])]
      simp [List.append_assoc]
    · rw [List.foldl_cons, if_neg h, ih,
        List.filter_cons_of_pos (by simp [h]), List.filter_cons_of_neg (by simp [h])]
      simp [List.append_assoc]

theorem foldl_partition_model (m : String) (l : List Audit) (x y : List Audit) :
    l.foldl (fun acc2 a =>
      if a.model = m then (acc2.1 ++ [a], acc2.2) else (acc2.1, acc2.2 ++ [a])) (x, y)
    = (x ++ l.filter (fun a => decide (a.model = m)),
       y ++ l.filter (fun a => !decide (a.model = m))) := by
  induction l generalizing x y with
  | nil => simp
  | cons a rest ih =>
    by_cases h : a.model = m
    · rw [List.foldl_cons, if_pos h, ih,
        List.filter_cons_of_pos (by simp [h]), List.filter_cons_of_neg (by simp [h])]
      simp [List.append_assoc]
    · rw [List.foldl_cons, if_neg h, ih,
        List.filter_cons_of_neg (by simp [h]), List.filter_cons_of_pos (by simp [h])]
      simp [List.append_assoc]

/-- C4: the batch review orchestrator resolves, in order: all non-identity
audits (in input order), then the identity audits of model `Plot`, then the
remaining identity audits of model `Tree`, and finally the identity audits
of every other model type — so every non-identity audit is resolved before
any identity audit, `Plot` identity audits before `Tree` identity audits,
and identity audits of other model types last. -/
theorem C4_batch_resolution_order (audits : List Audit) :
    batch_resolution_order audits =
      audits.filter (fun a => !decide (a.field = some "id"))
      ++ (audits.filter (fun a => decide (a.field = some "id"))).filter
          (fun a => decide (a.model = "Plot"))
      ++ ((audits.filter (fun a => decide (a.field = some "id"))).filter
          (fun a => !decide (a.model = "Plot"))).filter
          (fun a => decide (a.model = "Tree"))
      ++ ((audits.filter (fun a => decide (a.field = some "id"))).filter
          (fun a => !decide (a.model = "Plot"))).filter
          (fun a => !decide (a.model = "Tree")) := by
  unfold batch_resolution_order
  rw [foldl_partition_field audits [] []]
  simp only [List.foldl_cons, List.foldl_nil, foldl_partition_model]
  simp [List.append_assoc]

/-- C6: resolving a pending audit (single path, after-the-fact path for an
already applied audit, or a batch) by a reviewer who holds no permission of
level exactly WRITE_DIRECTLY on the audited field (for a UDF-collection
audit, on the owning collection's virtual field name, as computed by
`verifyPermTarget`) raises an authorization error with the store unchanged:
no review audit is written, the audit's `ref` stays null, and no record is
mutated. -/
theorem C6_resolution_requires_write_directly (env : Env) (audit : Audit) (u : User)
    (approved : Bool) (db : DB) (fuel : Nat) (i : Nat) (fld : Option String) (mdl : String)
    (href : audit.ref = none)
    (hinst : audit.inst = some i)
    (htgt : verifyPermTarget env audit = .ok (fld, mdl))
    (hperm : ∀ p ∈ u.get_instance_permissions i mdl,
      some p.field_name = fld → p.permission_level ≠ FieldPermission.WRITE_DIRECTLY) :
    _verify_user_can_apply_audit env audit u = .error .authorize ∧
    approve_or_reject_audit_and_apply (fuel + 1) env audit u approved db
      = (.error .authorize, db) ∧
    (audit.requires_auth = false →
      approve_or_reject_existing_edit env audit u approved db = (.error .authorize, db)) ∧
    approve_or_reject_audits_and_apply env [audit] u approved db
      = (.error .authorize, db) := by
  have hver : _verify_user_can_apply_audit env audit u = .error .authorize := by
    unfold _verify_user_can_apply_audit
    rw [htgt]
    dsimp only
    rw [hinst]
    dsimp only
    exact verifyPermLoop_err fld _ hperm
  have hsingle : ∀ n, approve_or_reject_audit_and_apply (n + 1) env audit u approved db
      = (.error .authorize, db) := by
    intro n
    unfold approve_or_reject_audit_and_apply
    dsimp only
    rw [if_neg (by simp [href])]
    rw [hver]
  refine ⟨hver, hsingle fuel, ?_, ?_⟩
  · intro hra
    unfold approve_or_reject_existing_edit
    rw [if_neg (by simp [href]), if_neg (by simp [hra])]
    dsimp only
    rw [hver]
  · unfold approve_or_reject_audits_and_apply
    rw [batch_order_singleton]
    unfold resolveAll
    rw [hsingle db.audits.length]

theorem countP_key_eq_zero {α : Type} (l : List (String × α)) (f : String)
    (hf : ∀ p ∈ l, p.1 ≠ f) :
    l.countP (fun p => decide (p.1 = f)) = 0 := by
  induction l with
  | nil => rfl
  | cons p rest ih =>
    rw [List.countP_cons]
    rw [ih (fun q hq => hf q (List.mem_cons_of_mem _ hq))]
    simp [hf p (List.mem_cons_self _ _)]

theorem countP_key_eq_one {α : Type} (l : List (String × α)) (f : String)
    (hnd : (l.map (fun p => p.1)).Nodup) (hf : f ∈ l.map (fun p => p.1)) :
    l.countP (fun p => decide (p.1 = f)) = 1 := by
  induction l with
  | nil => cases hf
  | cons p rest ih =>
    simp only [List.map_cons, List.nodup_cons] at hnd
    rw [List.countP_cons]
    rcases List.mem_cons.mp hf with he | hm
    · have hz : rest.countP (fun p => decide (p.1 = f)) = 0 := by
        apply countP_key_eq_zero
        intro q hq he2
        exact hnd.1 (List.mem_map.mpr ⟨q, hq, he2.trans he⟩)
      rw [hz]
      simp [he]
    · have hne : p.1 ≠ f := by
        intro he2
        exact hnd.1 (he2 ▸ hm)
      rw [ih hnd.2 hm]
      simp [hne]

/-- C1: during any completed save, every changed field held at exactly
WRITE_WITH_AUDIT for the user is reverted on the in-memory record to its
pre-diff value (so the live record's value for the field is the old one),
is removed from the directly-applied updates, and produces exactly one new
audit row for that field, carrying `requires_auth = true` and the old and
new serialized values.  (The identity column `id` is managed by the
creation logic rather than the diff, so it is excluded from the quantifier.) -/
theorem C1_pending_field_diverted (env : Env) (u : User) (r : TrackedRecord) (db : DB)
    (i : Nat) (f : String) (old new : Value) (r' : TrackedRecord) (db' : DB)
    (hinst : r.inst = some i)
    (hkeys : (r.as_dict.map (fun kv => kv.1)).Nodup)
    (hpermnd : ((u.get_instance_permissions i r.model_name).map
      (fun p => p.field_name)).Nodup)
    (hfid : f ≠ "id")
    (hperm : ∃ p ∈ u.get_instance_permissions i r.model_name,
      p.field_name = f ∧ p.permission_level = FieldPermission.WRITE_WITH_AUDIT)
    (hupd : r._updated_fields.lookup f = some (old, new))
    (hsave : Authorizable.save_with_user env u r db = (.ok r', db')) :
    r'.getattr f = old ∧
    ∃ newAudits, db'.audits = db.audits ++ newAudits ∧
      newAudits.countP (fun a => decide (a.field = some f)) = 1 ∧
      ∀ a ∈ newAudits, a.field = some f →
        a.requires_auth = true ∧ a.previous_value = old ∧ a.current_value = new := by
  have hsave' := authorizable_ok_inv env u r db r' db' hsave
  rcases auditable_save_decomp env u r false db i r' db' hinst hkeys hpermnd hsave' with
    ⟨pas, updates', mid, U, P, hmap, hmem, hupdflt, hget, haud, hdisj⟩
  rcases hperm with ⟨p, hpmem, hpf, hplvl⟩
  have hfupd : f ∈ r._updated_fields.map (fun x => x.1) :=
    List.mem_map.mpr ⟨(f, old, new), mem_of_lookup_eq_some hupd, rfl⟩
  have hfpend : f ∈ Authorizable.get_pending_fields u r :=
    (mem_pending_fields_iff u r i hinst f).mpr ⟨p, hpmem, hpf, hplvl, hfupd⟩
  have hpasnd : (pas.map (fun q => q.1)).Nodup := by
    rw [hmap]
    exact pending_fields_nodup u r i hinst hpermnd
  have hfpas : f ∈ pas.map (fun q => q.1) := by
    rw [hmap]
    exact hfpend
  have hpaslook : pas.lookup f = some (old, new) := by
    rcases List.mem_map.mp hfpas with ⟨⟨g, ov⟩, hgm, hge⟩
    cases hge
    have := hmem g ov hgm
    rw [hupd] at this
    cases this
    exact lookup_eq_some_of_mem_nodup hpasnd hgm
  have hupdz : ∀ q ∈ updates', q.1 ≠ f := by
    intro q hq he
    rw [hupdflt] at hq
    rcases List.mem_filter.mp hq with ⟨_, hq2⟩
    simp only [Bool.not_eq_true'] at hq2
    have : (Authorizable.get_pending_fields u r).contains q.1 = true := by
      rw [he]
      exact List.elem_eq_true_of_mem hfpend
    rw [this] at hq2
    cases hq2
  have hUz : ∀ q ∈ U, q.1 ≠ f := by
    rcases hdisj with ⟨hU, _⟩ | ⟨hU, _⟩ | ⟨hU, _⟩
    · rw [hU]
      exact hupdz
    · rw [hU]
      intro q hq
      rcases List.mem_append.mp hq with hq1 | hq1
      · exact hupdz q hq1
      · rcases List.mem_singleton.mp hq1 with rfl
        exact Ne.symm hfid
    · rw [hU]
      exact hupdz
  have hPcount : P.countP (fun q => decide (q.1 = f)) = 1 := by
    rcases hdisj with ⟨_, hP⟩ | ⟨_, hP⟩ | ⟨_, hP⟩
    · rw [hP]
      exact countP_key_eq_one pas f hpasnd hfpas
    · rw [hP]
      exact countP_key_eq_one pas f hpasnd hfpas
    · rw [hP, List.countP_append, countP_key_eq_one pas f hpasnd hfpas,
        countP_key_eq_zero _ _ (fun q hq => by
          rcases List.mem_singleton.mp hq with rfl
          exact Ne.symm hfid)]
  have hPmem : ∀ q ∈ P, q.1 = f → q = (f, (old, new)) := by
    have hpasm : ∀ q ∈ pas, q.1 = f → q = (f, (old, new)) := by
      rintro ⟨g, ov⟩ hq he
      cases he
      have := hmem g ov hq
      rw [hupd] at this
      cases this
      rfl
    rcases hdisj with ⟨_, hP⟩ | ⟨_, hP⟩ | ⟨_, hP⟩
    · rw [hP]
      exact hpasm
    · rw [hP]
      exact hpasm
    · rw [hP]
      intro q hq he
      rcases List.mem_append.mp hq with hq1 | hq1
      · exact hpasm q hq1 he
      · rcases List.mem_singleton.mp hq1 with rfl
        exact absurd he (Ne.symm hfid)
  refine ⟨?_, ?_⟩
  · rw [hget f hfid, hpaslook]
    rfl
  · refine ⟨auditsFrom r.model_name mid r.inst u.id
        (if r.pk = none then AuditAction.insert else AuditAction.update) false
        db.next_audit_pk U
      ++ auditsFrom r.model_name mid r.inst u.id
        (if r.pk = none then AuditAction.insert else AuditAction.update) true
        (db.next_audit_pk + U.length) P, ?_, ?_, ?_⟩
    · rw [haud, List.append_assoc]
    · rw [List.countP_append, auditsFrom_countP_field, auditsFrom_countP_field,
        countP_key_eq_zero U f hUz, hPcount]
    · intro a ha haf
      rcases List.mem_append.mp ha with ha1 | ha1
      · rcases auditsFrom_mem _ _ _ _ _ _ _ _ _ ha1 with ⟨it, hit, hf1, _⟩
        rw [haf] at hf1
        cases hf1
        exact absurd rfl (hUz it hit)
      · rcases auditsFrom_mem _ _ _ _ _ _ _ _ _ ha1 with
          ⟨it, hit, hf1, hprev, hcur, hra, _⟩
        rw [haf] at hf1
        have hkey : it.1 = f := by
          cases hf1
          rfl
        have := hPmem it hit hkey
        rw [this] at hprev hcur
        exact ⟨hra, hprev, hcur⟩

/-- C1 witness: the editor with WRITE_WITH_AUDIT on `name` saves the live
record after changing `name`; the value is reverted and exactly one
pending audit is written for it. -/
theorem C1_pending_field_diverted_witness :
    fxLive.getattr "name" = some "y" ∧
    ∃ r' db', Authorizable.save_with_user fxEnv fxEditor fxLive fxDB = (.ok r', db') ∧
      r'.getattr "name" = some "x" ∧
      ∃ newAudits, db'.audits = fxDB.audits ++ newAudits ∧
        newAudits.countP (fun a => decide (a.field = some "name")) = 1 ∧
        ∀ a ∈ newAudits, a.field = some "name" →
          a.requires_auth = true ∧ a.previous_value = some "x" ∧
          a.current_value = some "y" := by
  have hsave : Authorizable.save_with_user fxEnv fxEditor fxLive fxDB =
      (.ok fxC1rec, fxC1db) := by
    decide
  have h := C1_pending_field_diverted fxEnv fxEditor fxLive fxDB 1 "name"
    (some "x") (some "y") fxC1rec fxC1db
    rfl (by decide) (by decide) (by decide)
    ⟨fxPermNameWWA, by decide, rfl, rfl⟩ (by decide) hsave
  exact ⟨rfl, _, _, hsave, h.1, h.2⟩

/-- C5 counterexample: the editor holds only WRITE_WITH_AUDIT on the
required field `name` (so the creation cannot proceed directly and becomes
a pending insert), but holds WRITE_DIRECTLY on the changed optional field
`width`; the save writes the `width` audit with `requires_auth = false`,
refuting the claim that one pending (`requires_auth = true`) audit is
written per changed field. -/
theorem C5_counterexample :
    Authorizable.user_can_create fxEditor fxFresh true = .ok false ∧
    (fxFresh._updated_fields.lookup "width").isSome = true ∧
    ((Authorizable.save_with_user fxEnv fxEditor fxFresh fxDB).2.audits.filter
      (fun a => decide (a.field = some "width"))).map (fun a => a.requires_auth)
      = [false] := by
  refine ⟨?_, ?_, ?_⟩ <;> decide

/-- C5 (amended): a creation attempt (fresh record: no primary key, empty
snapshot) by a user who may create with audits but lacks WRITE_DIRECTLY on
some required-for-create field, without the authorization bypass, is not
persisted: a reserved identifier is drawn from the store's sequence and
assigned, the record is marked a pending insert, exactly one pending
identity audit (field `id`, previous null, current the reserved
identifier, `requires_auth = true`) is written, exactly one pending
(`requires_auth = true`) audit is written per changed field whose
permission level is exactly WRITE_WITH_AUDIT, and every other changed
field instead gets exactly one immediately-applied (`requires_auth =
false`) audit. -/
theorem C5_amended_pending_insert (env : Env) (u : User) (r : TrackedRecord) (db : DB)
    (i : Nat) (cls : ModelClass)
    (hinst : r.inst = some i)
    (hkeys : (r.as_dict.map (fun kv => kv.1)).Nodup)
    (hpermnd : ((u.get_instance_permissions i r.model_name).map
      (fun p => p.field_name)).Nodup)
    (hpk : r.pk = none)
    (hprev : r.previous_state = [])
    (hpend0 : r.is_pending_insert = false)
    (hmask0 : r.has_been_masked = false)
    (hcreate : Authorizable.user_can_create u r false = .ok true)
    (hnodirect : Authorizable.user_can_create u r true = .ok false)
    (hcls : env.get_model_class r.model_name = some cls) :
    ∃ r' db', Authorizable.save_with_user env u r db = (.ok r', db') ∧
      db'.objects = db.objects ∧
      db'.seq = db.seq + 1 ∧
      r'.pk = some (toString (db.seq + 1)) ∧
      r'.is_pending_insert = true ∧
      ∃ newAudits, db'.audits = db.audits ++ newAudits ∧
        newAudits.countP (fun a => decide (a.field = some "id")) = 1 ∧
        (∀ a ∈ newAudits, a.field = some "id" →
          a.requires_auth = true ∧ a.previous_value = none ∧
          a.current_value = some (toString (db.seq + 1))) ∧
        (∀ f old new, f ≠ "id" → r._updated_fields.lookup f = some (old, new) →
          (∃ p ∈ u.get_instance_permissions i r.model_name, p.field_name = f ∧
            p.permission_level = FieldPermission.WRITE_WITH_AUDIT) →
          newAudits.countP (fun a => decide (a.field = some f)) = 1 ∧
          ∀ a ∈ newAudits, a.field = some f →
            a.requires_auth = true ∧ a.previous_value = old ∧ a.current_value = new) ∧
        (∀ f old new, f ≠ "id" → r._updated_fields.lookup f = some (old, new) →
          (∀ p ∈ u.get_instance_permissions i r.model_name, p.field_name = f →
            p.permission_level ≠ FieldPermission.WRITE_WITH_AUDIT) →
          newAudits.countP (fun a => decide (a.field = some f)) = 1 ∧
          ∀ a ∈ newAudits, a.field = some f →
            a.requires_auth = false ∧ a.previous_value = old ∧ a.current_value = new) := by
  have hund : (r._updated_fields.map (fun p => p.1)).Nodup :=
    updated_fields_keys_nodup r hkeys
  have hidnupd : "id" ∉ r._updated_fields.map (fun x => x.1) := by
    intro hmem
    rw [updated_fields_eq] at hmem
    rw [List.map_map] at hmem
    rcases List.mem_map.mp hmem with ⟨kv, hkv, hkve⟩
    rcases List.mem_filter.mp hkv with ⟨hkvmem, hpred⟩
    have hkey : kv.1 = "id" := hkve
    simp only [Bool.and_eq_true, decide_eq_true_eq] at hpred
    unfold TrackedRecord.as_dict at hkvmem
    rcases List.mem_cons.mp hkvmem with he | hm
    · rw [he] at hpred
      rw [hprev, hpk] at hpred
      simp [List.lookup] at hpred
    · unfold TrackedRecord.as_dict at hkeys
      simp only [List.map_cons, List.nodup_cons] at hkeys
      exact hkeys.1 (hkey ▸ List.mem_map.mpr ⟨kv, hm, rfl⟩)
  have hidnpend : "id" ∉ Authorizable.get_pending_fields u r := by
    intro hmem
    rcases (mem_pending_fields_iff u r i hinst "id").mp hmem with ⟨p, _, _, _, hk⟩
    exact hidnupd hk
  have hpnd : (Authorizable.get_pending_fields u r).Nodup :=
    pending_fields_nodup u r i hinst hpermnd
  have hsub : ∀ f ∈ Authorizable.get_pending_fields u r,
      ∃ ov, r._updated_fields.lookup f = some ov := by
    intro f hf
    rcases (mem_pending_fields_iff u r i hinst f).mp hf with ⟨p, _, _, _, hmem⟩
    rcases List.mem_map.mp hmem with ⟨⟨g, ov⟩, hm, hg⟩
    cases hg
    exact ⟨ov, lookup_eq_some_of_mem_nodup hund hm⟩
  rcases processPending_spec (Authorizable.get_pending_fields u r) r._updated_fields r
    hpnd hund hsub with
    ⟨pas, updates', r₂, heq, hmap, hmem, hupdflt, hget, hmask2, hpend2, hmn2, hinst2,
      hmeta2, hprev2⟩
  have hpasl : pas.lookup "id" = none := by
    apply lookup_eq_none_of_not_mem_keys
    rw [hmap]
    exact hidnpend
  have hr2pk : r₂.pk = none := by
    have h1 : r₂.getattr "id" = r₂.pk := by
      unfold TrackedRecord.getattr
      rw [if_pos rfl]
    have h2 : r.getattr "id" = r.pk := by
      unfold TrackedRecord.getattr
      rw [if_pos rfl]
    have := hget "id"
    rw [h1, h2, hpasl, hpk] at this
    exact this
  have hsaveA : Auditable.save_with_user env u r false db =
      finishSaveAudits u
        { r₂ with pk := some (toString (db.seq + 1)), is_pending_insert := true }
        r₂.inst
        (if (decide (r.pk = none)) = true then AuditAction.insert else AuditAction.update)
        (decide (r.pk = none)) (some (toString (db.seq + 1))) updates' pas
        { db with seq := db.seq + 1 } := by
    unfold Auditable.save_with_user
    rw [if_neg (by rw [hpend0]; exact Bool.false_ne_true)]
    dsimp only
    rw [heq]
    dsimp only
    rw [user_can_create_congr u r r₂ true hinst2 hmn2 hmeta2, hnodirect]
    dsimp only
    rw [if_neg (show ¬((false || !decide (r₂.pk = none) || false) = true) by
      simp [hr2pk])]
    rw [show env.get_model_class r₂.model_name = some cls by rw [hmn2]; exact hcls]
    dsimp only [DB.nextval]
  have hfin : ∃ dbF, finishSaveAudits u
      { r₂ with pk := some (toString (db.seq + 1)), is_pending_insert := true }
      r₂.inst
      (if (decide (r.pk = none)) = true then AuditAction.insert else AuditAction.update)
      (decide (r.pk = none)) (some (toString (db.seq + 1))) updates' pas
      { db with seq := db.seq + 1 } =
      (.ok { r₂ with pk := some (toString (db.seq + 1)), is_pending_insert := true },
        dbF) := by
    unfold finishSaveAudits
    exact ⟨_, rfl⟩
  rcases hfin with ⟨dbF, hfin⟩
  have hsaveB : Auditable.save_with_user env u r false db =
      (.ok { r₂ with pk := some (toString (db.seq + 1)), is_pending_insert := true },
        dbF) := by
    rw [hsaveA, hfin]
  have hsaveTop : Authorizable.save_with_user env u r db =
      (.ok { r₂ with pk := some (toString (db.seq + 1)), is_pending_insert := true },
        dbF) := by
    unfold Authorizable.save_with_user
    rw [if_neg (by rw [hmask0]; exact Bool.false_ne_true)]
    rw [if_neg (show ¬((!decide (r.pk = none)) = true) by simp [hpk])]
    rw [hcreate]
    dsimp only
    rw [if_pos rfl]
    exact hsaveB
  rcases auditable_save_decomp env u r false db i _ dbF hinst hkeys hpermnd hsaveB with
    ⟨pas2, updates2, mid, U, P, hmap2, hmem2, hupdflt2, _, haud, _, himp⟩
  rcases himp rfl with ⟨hobj, hseq, hmid, hpk', hUP⟩
  rcases hUP hpk with ⟨hU, hP⟩
  -- keys facts
  have hpas2nd : (pas2.map (fun q => q.1)).Nodup := by
    rw [hmap2]
    exact hpnd
  have hupd2nd : (updates2.map (fun q => q.1)).Nodup := by
    rw [hupdflt2]
    exact hund.sublist ((List.filter_sublist _).map _)
  have hpas2keys : ∀ q ∈ pas2, q.1 ∈ Authorizable.get_pending_fields u r := by
    intro q hq
    rw [← hmap2]
    exact List.mem_map.mpr ⟨q, hq, rfl⟩
  have hupd2mem : ∀ q ∈ updates2, (q.1, q.2) ∈ r._updated_fields ∧
      q.1 ∉ Authorizable.get_pending_fields u r := by
    intro q hq
    rw [hupdflt2] at hq
    rcases List.mem_filter.mp hq with ⟨hq1, hq2⟩
    simp only [Bool.not_eq_true'] at hq2
    constructor
    · exact hq1
    · intro hmem3
      have hc : (Authorizable.get_pending_fields u r).contains q.1 = true :=
        List.elem_eq_true_of_mem hmem3
      rw [hc] at hq2
      cases hq2
  refine ⟨_, dbF, hsaveTop, hobj, hseq, ?_, rfl, ?_⟩
  · rw [hpk', hmid]
  refine ⟨auditsFrom r.model_name mid r.inst u.id
      (if r.pk = none then AuditAction.insert else AuditAction.update) false
      db.next_audit_pk U
    ++ auditsFrom r.model_name mid r.inst u.id
      (if r.pk = none then AuditAction.insert else AuditAction.update) true
      (db.next_audit_pk + U.length) P, ?_, ?_, ?_, ?_, ?_⟩
  · rw [haud, List.append_assoc]
  · -- exactly one identity audit
    rw [List.countP_append, auditsFrom_countP_field, auditsFrom_countP_field, hU, hP]
    rw [countP_key_eq_zero updates2 _ (fun q hq he => by
      rcases hupd2mem q hq with ⟨hq1, _⟩
      exact hidnupd (he ▸ List.mem_map.mpr ⟨(q.1, q.2), hq1, rfl⟩))]
    rw [List.countP_append]
    rw [countP_key_eq_zero pas2 "id" (fun q hq he =>
      hidnpend (he ▸ hpas2keys q hq))]
    simp
  · -- identity audit payload
    intro a ha haf
    rcases List.mem_append.mp ha with ha1 | ha1
    · rcases auditsFrom_mem _ _ _ _ _ _ _ _ _ ha1 with ⟨it, hit, hf1, _⟩
      rw [haf] at hf1
      have hkey : it.1 = "id" := (Option.some_inj.mp hf1).symm
      rcases hupd2mem it (by rw [← hU]; exact hit) with ⟨hq1, _⟩
      exact absurd (hkey ▸ List.mem_map.mpr ⟨(it.1, it.2), hq1, rfl⟩) hidnupd
    · rcases auditsFrom_mem _ _ _ _ _ _ _ _ _ ha1 with
        ⟨it, hit, hf1, hprv, hcur, hra, _⟩
      rw [haf] at hf1
      have hkey : it.1 = "id" := (Option.some_inj.mp hf1).symm
      rw [hP] at hit
      rcases List.mem_append.mp hit with hit1 | hit1
      · exact absurd (hkey ▸ hpas2keys it hit1) hidnpend
      · rcases List.mem_singleton.mp hit1 with rfl
        rw [hmid] at hprv hcur
        exact ⟨hra, hprv, hcur⟩
  · -- exactly-WRITE_WITH_AUDIT changed fields get one pending audit
    intro f old new hfid hlook hperm
    rcases hperm with ⟨p, hpmem, hpf, hplvl⟩
    have hfupd : f ∈ r._updated_fields.map (fun x => x.1) :=
      List.mem_map.mpr ⟨(f, old, new), mem_of_lookup_eq_some hlook, rfl⟩
    have hfpend : f ∈ Authorizable.get_pending_fields u r :=
      (mem_pending_fields_iff u r i hinst f).mpr ⟨p, hpmem, hpf, hplvl, hfupd⟩
    have hfpas : f ∈ pas2.map (fun q => q.1) := by
      rw [hmap2]
      exact hfpend
    have hpasmem : ∀ q ∈ pas2, q.1 = f → q = (f, (old, new)) := by
      rintro ⟨g, ov⟩ hq he
      cases he
      have := hmem2 g ov hq
      rw [hlook] at this
      cases this
      rfl
    constructor
    · rw [List.countP_append, auditsFrom_countP_field, auditsFrom_countP_field, hU, hP]
      rw [countP_key_eq_zero updates2 _ (fun q hq he => by
        rcases hupd2mem q hq with ⟨_, hq2⟩
        exact hq2 (he ▸ hfpend))]
      rw [List.countP_append, countP_key_eq_one pas2 f hpas2nd hfpas]
      rw [countP_key_eq_zero _ _ (fun q hq he => by
        rcases List.mem_singleton.mp hq with rfl
        exact hfid he.symm)]
    · intro a ha haf
      rcases List.mem_append.mp ha with ha1 | ha1
      · rcases auditsFrom_mem _ _ _ _ _ _ _ _ _ ha1 with ⟨it, hit, hf1, _⟩
        rw [haf] at hf1
        have hkey : it.1 = f := by
          cases hf1
          rfl
        rcases hupd2mem it (by rw [← hU]; exact hit) with ⟨_, hq2⟩
        exact absurd (hkey ▸ hfpend) hq2
      · rcases auditsFrom_mem _ _ _ _ _ _ _ _ _ ha1 with
          ⟨it, hit, hf1, hprv, hcur, hra, _⟩
        rw [haf] at hf1
        have hkey : it.1 = f := by
          cases hf1
          rfl
        rw [hP] at hit
        rcases List.mem_append.mp hit with hit1 | hit1
        · have := hpasmem it hit1 hkey
          rw [this] at hprv hcur
          exact ⟨hra, hprv, hcur⟩
        · rcases List.mem_singleton.mp hit1 with rfl
          exact absurd hkey.symm hfid
  · -- other changed fields get one immediate audit
    intro f old new hfid hlook hnowwa
    have hfupdmem : (f, (old, new)) ∈ r._updated_fields := mem_of_lookup_eq_some hlook
    have hfnpend : f ∉ Authorizable.get_pending_fields u r := by
      intro hmem3
      rcases (mem_pending_fields_iff u r i hinst f).mp hmem3 with ⟨p, hpmem, hpf, hplvl, _⟩
      exact hnowwa p hpmem hpf hplvl
    have hfupd2 : (f, (old, new)) ∈ updates2 := by
      rw [hupdflt2]
      refine List.mem_filter.mpr ⟨hfupdmem, ?_⟩
      simp only [Bool.not_eq_true']
      by_cases hc : (Authorizable.get_pending_fields u r).contains f = true
      · exact absurd (by simpa using hc) hfnpend
      · simpa using hc
    have hfupd2keys : f ∈ updates2.map (fun q => q.1) :=
      List.mem_map.mpr ⟨(f, (old, new)), hfupd2, rfl⟩
    have hupd2memf : ∀ q ∈ updates2, q.1 = f → q = (f, (old, new)) := by
      rintro ⟨g, ov⟩ hq he
      cases he
      rcases hupd2mem (g, ov) hq with ⟨hq1, _⟩
      have := lookup_eq_some_of_mem_nodup hund hq1
      rw [hlook] at this
      cases this
      rfl
    constructor
    · rw [List.countP_append, auditsFrom_countP_field, auditsFrom_countP_field, hU, hP]
      rw [countP_key_eq_one updates2 f hupd2nd hfupd2keys]
      rw [List.countP_append]
      rw [countP_key_eq_zero pas2 f (fun q hq he => hfnpend (he ▸ hpas2keys q hq))]
      rw [countP_key_eq_zero _ _ (fun q hq he => by
        rcases List.mem_singleton.mp hq with rfl
        exact hfid he.symm)]
    · intro a ha haf
      rcases List.mem_append.mp ha with ha1 | ha1
      · rcases auditsFrom_mem _ _ _ _ _ _ _ _ _ ha1 with
          ⟨it, hit, hf1, hprv, hcur, hra, _⟩
        rw [haf] at hf1
        have hkey : it.1 = f := by
          cases hf1
          rfl
        have := hupd2memf it (by rw [← hU]; exact hit) hkey
        rw [this] at hprv hcur
        exact ⟨hra, hprv, hcur⟩
      · rcases auditsFrom_mem _ _ _ _ _ _ _ _ _ ha1 with ⟨it, hit, hf1, _⟩
        rw [haf] at hf1
        have hkey : it.1 = f := by
          cases hf1
          rfl
        rw [hP] at hit
        rcases List.mem_append.mp hit with hit1 | hit1
        · exact absurd (hkey ▸ hpas2keys it hit1) hfnpend
        · rcases List.mem_singleton.mp hit1 with rfl
          exact absurd hkey.symm hfid

/-- C5 witness: the amended theorem evaluated on the fresh record created
by the editor (WRITE_WITH_AUDIT on required `name`, WRITE_DIRECTLY on
optional `width`). -/
theorem C5_amended_pending_insert_witness :
    ∃ r' db', Authorizable.save_with_user fxEnv fxEditor fxFresh fxDB = (.ok r', db') ∧
      db'.objects = fxDB.objects ∧
      db'.seq = fxDB.seq + 1 ∧
      r'.pk = some (toString (fxDB.seq + 1)) ∧
      r'.is_pending_insert = true ∧
      ∃ newAudits, db'.audits = fxDB.audits ++ newAudits ∧
        newAudits.countP (fun a => decide (a.field = some "id")) = 1 ∧
        (∀ a ∈ newAudits, a.field = some "id" →
          a.requires_auth = true ∧ a.previous_value = none ∧
          a.current_value = some (toString (fxDB.seq + 1))) ∧
        (∀ f old new, f ≠ "id" → fxFresh._updated_fields.lookup f = some (old, new) →
          (∃ p ∈ fxEditor.get_instance_permissions 1 fxFresh.model_name,
            p.field_name = f ∧
            p.permission_level = FieldPermission.WRITE_WITH_AUDIT) →
          newAudits.countP (fun a => decide (a.field = some f)) = 1 ∧
          ∀ a ∈ newAudits, a.field = some f →
            a.requires_auth = true ∧ a.previous_value = old ∧ a.current_value = new) ∧
        (∀ f old new, f ≠ "id" → fxFresh._updated_fields.lookup f = some (old, new) →
          (∀ p ∈ fxEditor.get_instance_permissions 1 fxFresh.model_name,
            p.field_name = f →
            p.permission_level ≠ FieldPermission.WRITE_WITH_AUDIT) →
          newAudits.countP (fun a => decide (a.field = some f)) = 1 ∧
          ∀ a ∈ newAudits, a.field = some f →
            a.requires_auth = false ∧ a.previous_value = old ∧
            a.current_value = new) :=
  C5_amended_pending_insert fxEnv fxEditor fxFresh fxDB 1 fxPlot rfl (by decide)
    (by decide) rfl rfl rfl rfl (by decide) (by decide) (by decide)

/-- C6 witness: the read-only user cannot resolve the concrete pending
`width` audit through any path. -/
theorem C6_resolution_requires_write_directly_witness :
    _verify_user_can_apply_audit fxEnv fxAuditB fxWeak = .error .authorize ∧
    approve_or_reject_audit_and_apply 5 fxEnv fxAuditB fxWeak true fxDB2
      = (.error .authorize, fxDB2) ∧
    (fxAuditB.requires_auth = false →
      approve_or_reject_existing_edit fxEnv fxAuditB fxWeak true fxDB2
        = (.error .authorize, fxDB2)) ∧
    approve_or_reject_audits_and_apply fxEnv [fxAuditB] fxWeak true fxDB2
      = (.error .authorize, fxDB2) := by
  refine C6_resolution_requires_write_directly fxEnv fxAuditB fxWeak true fxDB2 4 1
    (some "width") "Plot" rfl rfl (by decide) ?_
  decide

theorem stored_getattr_apply_change_self (o : StoredObj) (k : String) (v : Value) :
    (o.apply_change k v).getattr k = v := by
  by_cases h : k = "id"
  · simp [StoredObj.apply_change, StoredObj.getattr, h]
  · simp [StoredObj.apply_change, StoredObj.getattr, h, lookup_setVal_self]

theorem stored_getattr_apply_change_ne (o : StoredObj) (k : String) (v : Value)
    (g : String) (h : g ≠ k) : (o.apply_change k v).getattr g = o.getattr g := by
  by_cases hk : k = "id"
  · subst hk
    simp [StoredObj.apply_change, StoredObj.getattr, h]
  · by_cases hg : g = "id"
    · simp [StoredObj.apply_change, StoredObj.getattr, hk, hg]
    · simp [StoredObj.apply_change, StoredObj.getattr, hk, hg,
        lookup_setVal_ne k v o.fields g h]

theorem stored_apply_change_pk_model (o : StoredObj) (k : String) (v : Value)
    (hk : k ≠ "id") :
    (o.apply_change k v).pk = o.pk ∧ (o.apply_change k v).model = o.model ∧
    (o.apply_change k v).inst = o.inst := by
  simp [StoredObj.apply_change, hk]

theorem applyAudits_getattr_preserve (l : List Audit) :
    ∀ (obj objA : StoredObj) (fn : String),
    applyAuditsToObj l obj = .ok objA → (∀ a ∈ l, a.field ≠ some fn) →
    objA.getattr fn = obj.getattr fn := by
  induction l with
  | nil =>
    intro obj objA fn h _
    cases h
    rfl
  | cons a rest ih =>
    intro obj objA fn h hne
    unfold applyAuditsToObj at h
    match hf : a.field with
    | none =>
      rw [hf] at h
      cases h
    | some f =>
      rw [hf] at h
      have hfn : f ≠ fn := by
        intro he
        exact hne a (List.mem_cons_self _ _) (he ▸ hf)
      rw [ih _ _ _ h (fun b hb => hne b (List.mem_cons_of_mem _ hb))]
      exact stored_getattr_apply_change_ne obj f a.clean_current_value fn (Ne.symm hfn)

theorem applyAudits_pk_model (l : List Audit) :
    ∀ (obj objA : StoredObj),
    applyAuditsToObj l obj = .ok objA → (∀ a ∈ l, a.field ≠ some "id") →
    objA.pk = obj.pk ∧ objA.model = obj.model ∧ objA.inst = obj.inst := by
  induction l with
  | nil =>
    intro obj objA h _
    cases h
    exact ⟨rfl, rfl, rfl⟩
  | cons a rest ih =>
    intro obj objA h hne
    unfold applyAuditsToObj at h
    match hf : a.field with
    | none =>
      rw [hf] at h
      cases h
    | some f =>
      rw [hf] at h
      have hfid : f ≠ "id" := by
        intro he
        exact hne a (List.mem_cons_self _ _) (he ▸ hf)
      rcases ih _ _ h (fun b hb => hne b (List.mem_cons_of_mem _ hb)) with ⟨h1, h2, h3⟩
      rcases stored_apply_change_pk_model obj f a.clean_current_value hfid with
        ⟨g1, g2, g3⟩
      exact ⟨h1.trans g1, h2.trans g2, h3.trans g3⟩

theorem applyAudits_getattr (l : List Audit) :
    ∀ (obj objA : StoredObj),
    applyAuditsToObj l obj = .ok objA → ((l.map (fun a => a.field)).Nodup) →
    ∀ a ∈ l, ∀ fn, a.field = some fn → objA.getattr fn = a.clean_current_value := by
  induction l with
  | nil =>
    intro obj objA _ _ a ha
    cases ha
  | cons b rest ih =>
    intro obj objA h hnd a ha fn haf
    unfold applyAuditsToObj at h
    simp only [List.map_cons, List.nodup_cons] at hnd
    match hf : b.field with
    | none =>
      rw [hf] at h
      cases h
    | some f =>
      rw [hf] at h
      rcases List.mem_cons.mp ha with he | hm
      · subst he
        rw [haf] at hf
        cases hf
        have hrest : ∀ c ∈ rest, c.field ≠ some fn := by
          intro c hc he2
          apply hnd.1
          rw [haf] at hnd ⊢
          exact he2 ▸ List.mem_map.mpr ⟨c, hc, rfl⟩
        rw [applyAudits_getattr_preserve rest _ _ _ h hrest]
        exact stored_getattr_apply_change_self obj fn a.clean_current_value
      · exact ih _ _ h hnd.2 a hm fn haf

theorem finishResolution_parts (a rv : Audit) (db : DB) :
    (∃ rv2, (finishResolution a rv db).1 = .ok rv2) ∧
    ((finishResolution a rv db).2).objects = db.objects ∧
    ((finishResolution a rv db).2).seq = db.seq := by
  exact ⟨⟨_, rfl⟩, rfl, rfl⟩

/-- C2 counterexample: audit `fxAuditB` (field `width`) shares the tenant,
model type, reserved identifier and Insert action of the identity audit
`fxAuditA`, but is still unresolved; approving the identity audit
materializes the record without applying `width` — so not *every* audit of
the batch is collected, only those already resolved with a PendingApprove
review. -/
theorem C2_counterexample :
    fxAuditB ∈ get_related_audits fxDB2 fxAuditA false ∧
    fxAuditB.current_value = some "5" ∧
    (((approve_or_reject_audit_and_apply (4 + 1) fxEnv fxAuditA fxReviewer true
      fxDB2).2).getObject "Plot" (some "7")).map (fun o => o.getattr "width")
      = some none := by
  refine ⟨by decide, by decide, ?_⟩
  unfold approve_or_reject_audit_and_apply
  dsimp only
  rw [if_neg (by decide), show _verify_user_can_apply_audit fxEnv fxAuditA fxReviewer
    = .ok () from by decide]
  dsimp only
  rw [show fxEnv.get_model_class fxAuditA.model = some fxPlot from by decide]
  dsimp only
  rw [if_pos rfl, show fxDB2.getObject fxAuditA.model fxAuditA.model_id = none from by
    decide]
  dsimp only
  rw [if_pos (show fxAuditA.field = some "id" from by decide)]
  decide

/-- C2 (amended): approving a non-identity pending audit whose record does
not exist never creates or persists a record; materialization fires only
when the identity audit itself is approved, at which point every other
audit sharing the same (tenant, model type, reserved identifier, Insert
action) *that has already been resolved with a PendingApprove review
audit* is collected, each collected audit's current value is applied to
the new record constructed with the reserved identifier, foreign-key
existence validation runs, and the record is persisted. -/
theorem C2_amended_materialization (fuel : Nat) (env : Env) (user : User) (db : DB)
    (audit : Audit) (cls : ModelClass) (objA : StoredObj)
    (href : audit.ref = none)
    (hfld : audit.field = some "id")
    (hver : _verify_user_can_apply_audit env audit user = .ok ())
    (hcls : env.get_model_class audit.model = some cls)
    (hobj : db.getObject audit.model audit.model_id = none)
    (hnodupf : ((get_related_audits db audit true).map (fun a => a.field)).Nodup)
    (hnoid : ∀ a ∈ get_related_audits db audit true, a.field ≠ some "id")
    (hcollect : applyAuditsToObj (get_related_audits db audit true)
      { model := audit.model, pk := audit.model_id,
        inst := if cls.has_instance_attr = true then audit.inst else none, fields := [] }
      = .ok objA)
    (hvalid : validate_foreign_keys_exist db objA cls.meta_fields = .ok ()) :
    (∀ (a2 : Audit) (db2 : DB) (fuel2 : Nat), a2.field ≠ some "id" →
      db2.getObject a2.model a2.model_id = none →
      ((approve_or_reject_audit_and_apply (fuel2 + 1) env a2 user true db2).2).objects
        = db2.objects) ∧
    (∃ rv db', approve_or_reject_audit_and_apply (fuel + 1) env audit user true db
        = (.ok rv, db') ∧
      db'.objects = (db.save_base objA).objects ∧
      objA.pk = audit.model_id ∧ objA.model = audit.model ∧
      (∀ a ∈ get_related_audits db audit true, ∀ fn, a.field = some fn →
        objA.getattr fn = a.clean_current_value)) := by
  constructor
  · intro a2 db2 fuel2 hfld2 hobj2
    unfold approve_or_reject_audit_and_apply
    dsimp only
    by_cases href2 : a2.ref ≠ none
    · rw [if_pos href2]
    rw [if_neg href2]
    match hv2 : _verify_user_can_apply_audit env a2 user with
    | .error e => rfl
    | .ok _ =>
      dsimp only
      match hc2 : env.get_model_class a2.model with
      | none => rfl
      | some cls2 =>
        dsimp only
        rw [if_pos rfl, hobj2]
        dsimp only
        rw [if_neg hfld2]
        exact (finishResolution_parts _ _ _).2.1
  · unfold approve_or_reject_audit_and_apply
    dsimp only
    rw [if_neg (by simp [href]), hver]
    dsimp only
    rw [hcls]
    dsimp only
    rw [if_pos rfl, hobj]
    dsimp only
    rw [if_pos hfld]
    unfold _process_approved_pending_insert
    dsimp only
    rw [hcollect]
    dsimp only
    rw [hvalid]
    dsimp only
    rcases applyAudits_pk_model _ _ _ hcollect hnoid with ⟨hpk2, hmodel2, _⟩
    rcases finishResolution_parts audit
      { pk := 0, model := audit.model, model_id := audit.model_id, inst := audit.inst,
        field := audit.field, previous_value := audit.previous_value,
        current_value := audit.current_value, user := user.id,
        action := AuditAction.pendingApprove, requires_auth := false, ref := none,
        created := 0 } (db.save_base objA) with ⟨⟨rv2, hrv2⟩, hobj3, _⟩
    refine ⟨rv2, _, ?_, hobj3, hpk2, hmodel2,
      applyAudits_getattr _ _ _ hcollect hnodupf⟩
    rw [← hrv2]

/-- C2 witness: with the sibling `width` audit already resolved by a
PendingApprove review (`fxDB3`), approving the identity audit persists the
record carrying the sibling's value. -/
theorem C2_amended_materialization_witness :
    (∀ (a2 : Audit) (db2 : DB) (fuel2 : Nat), a2.field ≠ some "id" →
      db2.getObject a2.model a2.model_id = none →
      ((approve_or_reject_audit_and_apply (fuel2 + 1) fxEnv a2 fxReviewer true db2).2).objects
        = db2.objects) ∧
    (∃ rv db', approve_or_reject_audit_and_apply 5 fxEnv fxAuditA fxReviewer true fxDB3
        = (.ok rv, db') ∧
      db'.objects = (fxDB3.save_base fxC2obj).objects ∧
      fxC2obj.pk = fxAuditA.model_id ∧ fxC2obj.model = fxAuditA.model ∧
      (∀ a ∈ get_related_audits fxDB3 fxAuditA true, ∀ fn, a.field = some fn →
        fxC2obj.getattr fn = a.clean_current_value)) :=
  C2_amended_materialization 4 fxEnv fxReviewer fxDB3 fxAuditA fxPlot fxC2obj rfl rfl
    (by decide) (by decide) (by decide) (by decide) (by decide) (by decide) (by decide)

end OTM2
